import Mathlib

/-!
Verification development for the JSON / 1PIF import backend of pass-import
(file pass_import/formats/json.py).

Python values are embedded shallowly:

* a parsed JSON document is a `JVal` (objects are association lists of
  string keys in insertion order, numbers are integers; floats are outside
  the scope of this development);
* a header schema (`json_header`) is an `HVal`: a document shape whose
  leaves may additionally be Python type markers (`HVal.ty`);
* Python strings are `List Char`;
* a function that can raise a Python exception returns an `Option`,
  where `none` is an escaping exception.

`JSON._ensureheader` is embedded as `ensureheader`, following the source
line by line (dispatch order: type-marker header first, then list data,
then dict data, then literal equality; `header[0]` inside the per-item
loop is an IndexError - hence `none` - when the header list is empty and
the data list is not).
-/

/-- A parsed JSON document (the result of Python `json.loads`). -/
inductive JVal where
  | null : JVal
  | bool : Bool → JVal
  | num : Int → JVal
  | str : List Char → JVal
  | arr : List JVal → JVal
  | obj : List (List Char × JVal) → JVal

/-- Python type objects that can appear as schema leaves (`str`, `int`, ...). -/
inductive PyType where
  | pystr | pyint | pybool | pylist | pydict
deriving DecidableEq

/-- A header schema: a document shape whose leaves may be type markers. -/
inductive HVal where
  | ty : PyType → HVal
  | null : HVal
  | bool : Bool → HVal
  | num : Int → HVal
  | str : List Char → HVal
  | arr : List HVal → HVal
  | obj : List (List Char × HVal) → HVal

instance : Inhabited JVal := ⟨.null⟩
instance : Inhabited HVal := ⟨.null⟩

/-- Python `isinstance(data, t)` for a parsed JSON value.
`bool` is a subclass of `int` in Python. -/
def pyIsinstance : JVal → PyType → Bool
  | .bool _, .pybool => true
  | .bool _, .pyint => true
  | .num _, .pyint => true
  | .str _, .pystr => true
  | .arr _, .pylist => true
  | .obj _, .pydict => true
  | _, _ => false

/-- Python `==` between a scalar document value and a literal schema leaf.
Python makes `True == 1` and `False == 0` hold; values of different
shapes compare unequal. -/
def pyLitEq : JVal → HVal → Bool
  | .null, .null => true
  | .bool b, .bool c => b = c
  | .bool b, .num n => if b then n = 1 else n = 0
  | .num n, .bool c => if c then n = 1 else n = 0
  | .num n, .num m => n = m
  | .str s, .str t => s = t
  | _, _ => false

/-- First-match lookup in a JSON object's association list
(Python `key in data` / `data[key]`). -/
def dLookup : List (List Char × JVal) → List Char → Option JVal
  | [], _ => none
  | (k, v) :: r, key => if k = key then some v else dLookup r key

mutual

/-- `JSON._ensureheader(data, header)` (json.py lines 38-67).
`some b` is a normal boolean return, `none` is an escaping exception:
the only exception source is `header[0]` evaluated inside the
`for item in data` loop when `header` is the empty list and `data` is a
non-empty list. -/
def ensureheader : JVal → HVal → Option Bool
  | .null, .ty _ => some true
  | d, .ty t => some (pyIsinstance d t)
  | .arr xs, .arr [] => if xs.isEmpty then some true else none
  | .arr xs, .arr (h0 :: _) => ensureArr xs h0
  | .arr _, _ => some false
  | .obj kvs, .obj hk => ensureObj kvs hk
  | .obj _, _ => some false
  | d, h => some (pyLitEq d h)
  termination_by d h => sizeOf d + sizeOf h
  decreasing_by
    all_goals simp_wf
    all_goals omega

/-- The `for item in data` loop of `_ensureheader` against the single
element schema `header[0]`. -/
def ensureArr : List JVal → HVal → Option Bool
  | [], _ => some true
  | x :: xs, h0 =>
    match ensureheader x h0 with
    | none => none
    | some false => some false
    | some true => ensureArr xs h0
  termination_by xs h0 => sizeOf xs + sizeOf h0
  decreasing_by
    all_goals simp_wf
    all_goals omega

/-- The `for key, value in header.items()` loop of `_ensureheader`. -/
def ensureObj : List (List Char × JVal) → List (List Char × HVal) → Option Bool
  | _, [] => some true
  | kvs, (k, sv) :: rest =>
    match hdv : dLookup kvs k with
    | none => some false
    | some dv =>
      match ensureheader dv sv with
      | none => none
      | some false => some false
      | some true => ensureObj kvs rest
  termination_by kvs hk => sizeOf kvs + sizeOf hk
  decreasing_by
    all_goals
      have hsz : ∀ (l : List (List Char × JVal)) (key : List Char) (v : JVal),
          dLookup l key = some v → sizeOf v < sizeOf l := by
        intro l
        induction l with
        | nil => intro key v h; simp [dLookup] at h
        | cons p r ih =>
          intro key v h
          obtain ⟨pk, pv⟩ := p
          simp only [dLookup] at h
          by_cases hk : pk = key
          · simp [hk] at h
            subst h
            simp
            omega
          · simp [hk] at h
            have := ih key v h
            simp
            omega
    all_goals simp_wf
    all_goals try omega
    all_goals (have h9 := hsz kvs k dv hdv; omega)

end

/-- `JSON.checkheader(header)`: `self._ensureheader(self.jsons, header)`. -/
def checkheader (jsons : JVal) (header : HVal) : Option Bool :=
  ensureheader jsons header

/-! ## Python value helpers used by the PIF importer -/

/-- Python truthiness of a parsed JSON value (`if v:`). -/
def pyTruthy : JVal → Bool
  | .null => false
  | .bool b => b
  | .num n => n != 0
  | .str s => !s.isEmpty
  | .arr xs => !xs.isEmpty
  | .obj kvs => !kvs.isEmpty

/-- Python `==` between a parsed JSON value and a string literal. -/
def jEqStr (v : JVal) (s : List Char) : Bool :=
  match v with
  | .str t => t == s
  | _ => false

mutual

/-- Structural equality of parsed JSON values; Python dict keys are
compared with `pyKeyEq` below, which adds the identification of `True`
with `1`. -/
def JVal.beq : JVal → JVal → Bool
  | .null, .null => true
  | .bool a, .bool b => a == b
  | .num a, .num b => a == b
  | .str a, .str b => a == b
  | .arr a, .arr b => JVal.beqL a b
  | .obj a, .obj b => JVal.beqKL a b
  | _, _ => false

/-- Elementwise `JVal.beq` on lists. -/
def JVal.beqL : List JVal → List JVal → Bool
  | [], [] => true
  | a :: as, b :: bs => JVal.beq a b && JVal.beqL as bs
  | _, _ => false

/-- Elementwise `JVal.beq` on key-value lists. -/
def JVal.beqKL : List (List Char × JVal) → List (List Char × JVal) → Bool
  | [], [] => true
  | (k, a) :: as, (l, b) :: bs => k == l && JVal.beq a b && JVal.beqKL as bs
  | _, _ => false

end

/-! ## Python dict operations on parsed JSON objects (string keys) -/

/-- `data.get(key, dflt)`. -/
def dGetD (kvs : List (List Char × JVal)) (key : List Char) (dflt : JVal) : JVal :=
  (dLookup kvs key).getD dflt

/-- Key removal, as performed by `dict.pop`. -/
def dRemove : List (List Char × JVal) → List Char → List (List Char × JVal)
  | [], _ => []
  | p :: r, key => if p.1 = key then dRemove r key else p :: dRemove r key

/-- `data[key] = v`: replace in place if the key is present, else append. -/
def dInsert (kvs : List (List Char × JVal)) (key : List Char) (v : JVal) :
    List (List Char × JVal) :=
  if (dLookup kvs key).isSome then
    kvs.map (fun p => if p.1 = key then (p.1, v) else p)
  else kvs ++ [(key, v)]

/-- `a.update(b)` for dicts: insert every pair of `b` into `a` in order. -/
def dUpdate (a b : List (List Char × JVal)) : List (List Char × JVal) :=
  b.foldl (fun acc p => dInsert acc p.1 p.2) a

/-! ## Python dicts with arbitrary (JSON-valued) keys: entries and folders -/

/-- An output Entry: a Python dict built by `PIF.parse`, in insertion order. -/
abbrev Entry := List (JVal × JVal)

/-- The transient folder map of `PIF.parse`: uuid key to (title, parent uuid). -/
abbrev Folders := List (JVal × (JVal × JVal))

/-- Canonical form of a Python dict key: the booleans hash and compare
equal to the matching integers (`True == 1`, `False == 0`), so they are
mapped to them before comparing. -/
def keyCanon : JVal → JVal
  | .bool b => .num (if b then 1 else 0)
  | v => v

/-- Python `==` between dict keys. -/
def pyKeyEq (a b : JVal) : Bool := JVal.beq (keyCanon a) (keyCanon b)

/-- Whether a parsed JSON value can be a Python dict key: lists and
dicts are unhashable, `hash(key)` raises TypeError on them. -/
def hashableKey : JVal → Bool
  | .arr _ => false
  | .obj _ => false
  | _ => true

/-- Lookup in an Entry (`entry[key]`), by Python key equality. -/
def eLookup : Entry → JVal → Option JVal
  | [], _ => none
  | (k, v) :: r, key => if pyKeyEq k key then some v else eLookup r key

/-- The effect of `entry[key] = v` once `key` has been hashed. -/
def eStore (e : Entry) (key v : JVal) : Entry :=
  if (eLookup e key).isSome then
    e.map (fun p => if pyKeyEq p.1 key then (p.1, v) else p)
  else e ++ [(key, v)]

/-- `entry[key] = v`: raises TypeError (`none`) on an unhashable key. -/
def eInsert (e : Entry) (key v : JVal) : Option Entry :=
  if hashableKey key then some (eStore e key v) else none

/-- Lookup in the folder map, by Python key equality. -/
def fLookup : Folders → JVal → Option (JVal × JVal)
  | [], _ => none
  | (k, v) :: r, key => if pyKeyEq k key then some v else fLookup r key

/-- The effect of `folders[key] = v` once `key` has been hashed. -/
def fStore (f : Folders) (key : JVal) (v : JVal × JVal) : Folders :=
  if (fLookup f key).isSome then
    f.map (fun p => if pyKeyEq p.1 key then (p.1, v) else p)
  else f ++ [(key, v)]

/-- `folders[key] = v`: raises TypeError (`none`) on an unhashable key
(the record's `uuid` value may be any JSON value). -/
def fInsert (f : Folders) (key : JVal) (v : JVal × JVal) : Option Folders :=
  if hashableKey key then some (fStore f key v) else none

/-- Python `for x in v`: lists iterate over elements, strings over
1-character strings, dicts over their keys; other values raise TypeError
(`none`). -/
def asIter : JVal → Option (List JVal)
  | .arr xs => some xs
  | .str s => some (s.map (fun c => .str [c]))
  | .obj kvs => some (kvs.map (fun p => .str p.1))
  | _ => none

/-! ## Key constants of the PIF importer -/

def trashedK : List Char := "trashed".toList
def typeNameK : List Char := "typeName".toList
def uuidK : List Char := "uuid".toList
def titleK : List Char := "title".toList
def folderUuidK : List Char := "folderUuid".toList
def locationK : List Char := "location".toList
def secureContentsK : List Char := "secureContents".toList
def fieldsK : List Char := "fields".toList
def sectionsK : List Char := "sections".toList
def nameK : List Char := "name".toList
def designationK : List Char := "designation".toList
def valueK : List Char := "value".toList
def vK : List Char := "v".toList
def otpauthK : List Char := "otpauth".toList
def folderTypeS : List Char := "system.folder.Regular".toList
def webformTypeS : List Char := "webforms.WebForm".toList
def otpPfxS : List Char := "otpauth:".toList

/-- `PIF.ignore` (json.py lines 87-105). -/
def ignoreSet : List (List Char) :=
  (["keyID", "uuid", "updatedAt", "locationKey", "securityLevel",
    "openContents", "faveIndex", "contentsHash", "trashed", "URLs",
    "passwordHistory", "htmlName", "htmlMethod", "htmlAction", "sections",
    "createdAt", "typeName"]).map (fun s => s.toList)

/-- The class-level default of `PIF.domain_prefixes` (json.py lines 106-119). -/
def defaultPrefixes : List (List Char) :=
  (["www", "www2", "web", "home", "ssl", "app", "m", "account", "accounts",
    "auth", "id", "login"]).map (fun s => s.toList)

/-! ## The external key map (`self.invkeys()`), injected as a parameter -/

/-- Lookup in the external key map. -/
def sLookup : List (List Char × List Char) → List Char → Option (List Char)
  | [], _ => none
  | (k, v) :: r, key => if k = key then some v else sLookup r key

/-- `keys.get(jsonkey, jsonkey)`: resolve a name through the external key
map, falling back to the name itself. An unhashable (list- or
dict-valued) key raises TypeError (`none`); a hashable non-string key is
never in the (string-keyed) map and falls back unchanged. -/
def keysGet (keys : List (List Char × List Char)) (k : JVal) : Option JVal :=
  match k with
  | .str s =>
    match sLookup keys s with
    | some c => some (.str c)
    | none => some (.str s)
  | .arr _ => none
  | .obj _ => none
  | other => some other

/-! ## One-time-password discovery (`PIF._find_otpauth`, json.py 206-213) -/

/-- Prefix test on character lists (`str.startswith`). -/
def startsWithL (pre s : List Char) : Bool := pre.isPrefixOf s

/-- The `for f in s.get('fields', [])` inner loop of `_find_otpauth`.
`none` is an escaping exception (`f.get` on a non-dict, or
`v.startswith` on a truthy non-string). -/
def findOtpFields : List JVal → Option (Option (List Char))
  | [] => some none
  | f :: rest =>
    match f with
    | .obj fkv =>
      match dGetD fkv vK .null with
      | .str s =>
        if pyTruthy (.str s) then
          (if startsWithL otpPfxS s then some (some s) else findOtpFields rest)
        else findOtpFields rest
      | v => if pyTruthy v then none else findOtpFields rest
    | _ => none

/-- `PIF._find_otpauth(sections)`: first field value, in section order then
field order, that is truthy and starts with the scheme prefix. -/
def findOtpauth : List JVal → Option (Option (List Char))
  | [] => some none
  | s :: rest =>
    match s with
    | .obj skv =>
      match asIter (dGetD skv fieldsK (.arr [])) with
      | none => none
      | some fl =>
        match findOtpFields fl with
        | none => none
        | some (some v) => some (some v)
        | some none => findOtpauth rest
    | _ => none

/-! ## Domain cleanup (`PIF._get_domain`, json.py 215-224) -/

/-- Split a character list on a separator (Python `str.split(sep)`). -/
def splitOnC (sep : Char) : List Char → List (List Char)
  | [] => [[]]
  | c :: rest =>
    if c = sep then [] :: splitOnC sep rest
    else
      match splitOnC sep rest with
      | [] => [[c]]
      | g :: gs => (c :: g) :: gs

/-- The `while len(parts) > 2 and parts[0] in self.domain_prefixes` loop. -/
def stripDomParts (pfx : List (List Char)) : List (List Char) → List (List Char)
  | [] => []
  | p :: rest =>
    if 2 < (p :: rest).length && decide (p ∈ pfx) then stripDomParts pfx rest
    else p :: rest

/-- `PIF._get_domain(url)`; `cleanDom` stands for the external
`clean.domain(clean.protocol(url))` helpers (out of scope per the spec,
consumed only through their call contract). -/
def getDomain (strip : Bool) (pfx : List (List Char))
    (cleanDom : List Char → List Char) (url : List Char) : List Char :=
  let dom := cleanDom url
  if strip then List.intercalate ['.'] (stripDomParts pfx (splitOnC '.' dom))
  else dom

/-! ## The record-processing loop of `PIF.parse` (json.py 150-204) -/

/-- The per-parse configuration of a `PIF` instance: the `browserpass` and
`strip_domain_prefixes` options, the domain-prefix set observed by the
instance, the external key map `self.invkeys()`, and the external domain
cleaning helper. -/
structure PifCfg where
  browserpass : Bool
  strip : Bool
  prefixes : List (List Char)
  keys : List (List Char × List Char)
  cleanDom : List Char → List Char

/-- The key under which one element of `secureContents.fields` is stored:
`jsonkey = designation or name; key = keys.get(jsonkey, jsonkey)`
(json.py 186-189); `none` is the TypeError `keys.get` raises when the
chosen `jsonkey` is an unhashable list or dict. -/
def fieldEntryKey (keys : List (List Char × List Char))
    (fkv : List (List Char × JVal)) : Option JVal :=
  let nm := dGetD fkv nameK (.str [])
  let ds := dGetD fkv designationK (.str [])
  keysGet keys (if pyTruthy ds then ds else nm)

/-- The `for field in fields` loop of `PIF.parse` (json.py 185-190);
`none` is an escaping exception (`field.get` on a non-dict, or the
TypeError of `keys.get`/`entry[key]` on an unhashable key). -/
def foldFields (keys : List (List Char × List Char)) :
    List JVal → Entry → Option Entry
  | [], e => some e
  | f :: rest, e =>
    match f with
    | .obj fkv =>
      match fieldEntryKey keys fkv with
      | none => none
      | some k =>
        match eInsert e k (dGetD fkv valueK (.str [])) with
        | none => none
        | some e2 => foldFields keys rest e2
    | _ => none

/-- Processing of one record of the normalized list inside `PIF.parse`
(json.py 155-203), acting on the pair (folder map, output entry list).
`none` is an escaping exception. -/
def processItem (cfg : PifCfg) (st : Folders × List Entry) (item : JVal) :
    Option (Folders × List Entry) :=
  match item with
  | .obj item0 =>
    if pyTruthy (dGetD item0 trashedK (.bool false)) then some st
    else if jEqStr (dGetD item0 typeNameK (.str [])) folderTypeS then
      match fInsert st.1 (dGetD item0 uuidK (.str []))
          (dGetD item0 titleK (.str []), dGetD item0 folderUuidK (.str [])) with
      | none => none
      | some f2 => some (f2, st.2)
    else if jEqStr (dGetD item0 typeNameK (.str [])) webformTypeS then
      match (if cfg.browserpass then
               (let url := dGetD item0 locationK .null
                if pyTruthy url then
                  (match url with
                   | .str u =>
                     let t := getDomain cfg.strip cfg.prefixes cfg.cleanDom u
                     if t.isEmpty then some item0
                     else some (dInsert item0 titleK (.str t))
                   | _ => none)
                else some item0)
             else some item0) with
      | none => none
      | some item1 =>
        match dGetD item1 secureContentsK (.obj []) with
        | .obj sc0 =>
          let item2 := dRemove item1 secureContentsK
          let fieldsJ := dGetD sc0 fieldsK (.arr [])
          let sc1 := dRemove sc0 fieldsK
          match asIter fieldsJ with
          | none => none
          | some fl =>
            match foldFields cfg.keys fl [] with
            | none => none
            | some entry0 =>
              let sectionsJ := dGetD sc1 sectionsK (.arr [])
              let sc2 := dRemove sc1 sectionsK
              match (if pyTruthy sectionsJ then
                       (match asIter sectionsJ with
                        | none => none
                        | some secl =>
                          match findOtpauth secl with
                          | none => none
                          | some (some v) =>
                            eInsert entry0 (.str otpauthK) (.str v)
                          | some none => some entry0)
                     else some entry0) with
              | none => none
              | some entry1 =>
                let item3 := dUpdate item2 sc2
                match item3.foldlM
                    (fun e p =>
                      if p.1 ∈ ignoreSet then some e
                      else
                        match keysGet cfg.keys (.str p.1) with
                        | none => none
                        | some k2 => eInsert e k2 p.2)
                    entry1 with
                | none => none
                | some entry2 => some (st.1, st.2 ++ [entry2])
        | _ => none
    else some st
  | _ => none

/-- The whole record loop of `PIF.parse` over the normalized list,
producing the folder map and the output entry list handed to the
external `self._sortgroup` (defined in the importer base class outside
this file, which only resolves each entry's group path in place). -/
def pifProcess (cfg : PifCfg) (jsons : List JVal) :
    Option (Folders × List Entry) :=
  jsons.foldlM (processItem cfg) ([], [])

/-- Spec-side traversal order for one-time-password candidates: the value
of a field if it is a string starting with the scheme prefix. -/
def fieldOtpVal (f : JVal) : Option (List Char) :=
  match f with
  | .obj fkv =>
    match dGetD fkv vK .null with
    | .str s => if startsWithL otpPfxS s then some s else none
    | _ => none
  | _ => none

/-- Spec-side traversal order: all candidate values of one section, in
field order. -/
def sectionOtpVals (s : JVal) : List (List Char) :=
  match s with
  | .obj skv =>
    match asIter (dGetD skv fieldsK (.arr [])) with
    | some fl => fl.filterMap fieldOtpVal
    | none => []
  | _ => []

/-- Spec-side traversal order: all candidate values, section order first,
field order within a section. -/
def otpCands (secl : List JVal) : List (List Char) :=
  (secl.map sectionOtpVals).flatten

/-- Well-formedness of one field for `_find_otpauth`: a dict whose value
under the candidate key is absent, a string, or falsy (anything else
makes the code raise). -/
def fieldVOk (f : JVal) : Bool :=
  match f with
  | .obj fkv =>
    match dGetD fkv vK .null with
    | .str _ => true
    | v => !pyTruthy v
  | _ => false

/-- Well-formedness of one section for `_find_otpauth`. -/
def sectionOk (s : JVal) : Bool :=
  match s with
  | .obj skv =>
    match asIter (dGetD skv fieldsK (.arr [])) with
    | some fl => fl.all fieldVOk
    | none => false
  | _ => false

/-! ## The 1PIF byte-stream normalizer (`PIF.pif2json`, json.py 140-148)

The regular expression `(?m)^\*\*\*.*\*\*\*\s+` is modelled directly:
a match starts at a line start, consists of `***`, then the longest
possible run of non-newline characters followed by `***` (greedy `.*`
with backtracking picks the rightmost closing `***` on the line that is
followed by whitespace), then the maximal non-empty whitespace run.
`re.sub` scans left to right and removes every non-overlapping match. -/

/-- Python `\s` on the ASCII range. -/
def isPySpace (c : Char) : Bool :=
  c == '\n' || c == ' ' || c == '\t' || c == '\r' ||
  c == Char.ofNat 11 || c == Char.ofNat 12

/-- Whether position `i` of `cs` holds a whitespace character. -/
def spaceAt (cs : List Char) (i : Nat) : Bool :=
  match cs.get? i with
  | some c => isPySpace c
  | none => false

/-- Whether `***` occurs at position `r` of `line`. -/
def tripleStarAt (line : List Char) (r : Nat) : Bool :=
  (line.drop r).take 3 == ['*', '*', '*']

/-- Rightmost position `r ≥ 3` within the current line holding `***`
followed (in the whole input) by a whitespace character. -/
def findClose (cs line : List Char) : Nat → Option Nat
  | 0 => none
  | 1 => none
  | 2 => none
  | r + 3 =>
    if tripleStarAt line (r + 3) && spaceAt cs (r + 6) then some (r + 3)
    else findClose cs line (r + 2)

/-- Length of the regex match starting at the head of `cs` (which must be
at a line start), or `none` if there is no match there. -/
def markerMatchLen (cs : List Char) : Option Nat :=
  if cs.take 3 == ['*', '*', '*'] then
    let line := cs.takeWhile (fun c => c != '\n')
    match findClose cs line line.length with
    | some r => some (r + 3 + ((cs.drop (r + 3)).takeWhile isPySpace).length)
    | none => none
  else none

/-- One left-to-right pass of `re.sub` with the marker pattern; `atStart`
records whether the current position is a line start of the original
input. -/
def pifSubAux (atStart : Bool) (cs : List Char) : List Char :=
  match cs with
  | [] => []
  | c :: rest =>
    match (if atStart then markerMatchLen (c :: rest) else none) with
    | some n =>
      pifSubAux (((c :: rest).drop (n - 1)).head? == some '\n') (rest.drop (n - 1))
    | none => c :: pifSubAux (c == '\n') rest
termination_by cs.length
decreasing_by
  · simp only [List.length_drop, List.length_cons]
    omega
  · simp only [List.length_cons]
    omega

/-- `re.sub(r'(?m)^\*\*\*.*\*\*\*\s+', '', data)`. -/
def pifClean (s : List Char) : List Char := pifSubAux true s

/-- Python `data.split('\n')`. -/
def splitNl : List Char → List (List Char)
  | [] => [[]]
  | c :: rest =>
    if c = '\n' then [] :: splitNl rest
    else
      match splitNl rest with
      | [] => [[c]]
      | g :: gs => (c :: g) :: gs

/-- Python `s.rstrip(',')`. -/
def rstripComma (s : List Char) : List Char :=
  (s.reverse.dropWhile (fun c => c == ',')).reverse

/-- Python `','.join(parts)`. -/
def joinComma : List (List Char) → List Char
  | [] => []
  | [l] => l
  | l :: ls => l ++ ',' :: joinComma ls

/-! ## The JSON parser (`json.loads`), modelled from the JSON standard

The model covers objects, arrays, strings with the single-character
escapes, integers and the three literals; `\uXXXX` escapes and float
syntax are rejected (strictly narrower than Python, and out of scope
for this importer's documents). Duplicate object keys keep the first
position and the last value, as Python dicts do. -/

/-- JSON whitespace. -/
def isJsonWs (c : Char) : Bool :=
  c == '\n' || c == ' ' || c == '\t' || c == '\r'

/-- Skip JSON whitespace. -/
def skipWs (s : List Char) : List Char := s.dropWhile isJsonWs

/-- Single-character string escapes. -/
def escChar : Char → Option Char
  | 'n' => some '\n'
  | 't' => some '\t'
  | 'r' => some '\r'
  | 'b' => some (Char.ofNat 8)
  | 'f' => some (Char.ofNat 12)
  | '"' => some '"'
  | '\\' => some '\\'
  | '/' => some '/'
  | _ => none

/-- Parse a string body after the opening quote, returning the decoded
content and the rest after the closing quote. -/
def parseStrBody : List Char → Option (List Char × List Char)
  | [] => none
  | c :: rest =>
    if c = '"' then some ([], rest)
    else if c = '\\' then
      match rest with
      | [] => none
      | e :: rest2 =>
        match escChar e with
        | none => none
        | some d => (parseStrBody rest2).map (fun p => (d :: p.1, p.2))
    else if c.toNat < 32 then none
    else (parseStrBody rest).map (fun p => (c :: p.1, p.2))

/-- Value of a digit string. -/
def digitsVal (ds : List Char) : Nat :=
  ds.foldl (fun a c => 10 * a + (c.toNat - 48)) 0

/-- Parse a non-empty digit run without leading zeros. -/
def parseDigits (s : List Char) : Option (Nat × List Char) :=
  let ds := s.takeWhile Char.isDigit
  let r := s.dropWhile Char.isDigit
  if ds.isEmpty then none
  else if 2 ≤ ds.length && ds.head? == some '0' then none
  else some (digitsVal ds, r)

/-- Parse an optionally negated integer. -/
def parseNum : List Char → Option (Int × List Char)
  | '-' :: r => (parseDigits r).map (fun p => (-(p.1 : Int), p.2))
  | s => (parseDigits s).map (fun p => ((p.1 : Int), p.2))

mutual

/-- Parse one JSON value at the head of the input (no leading whitespace),
returning the value and the unconsumed rest. -/
def parseVal : Nat → List Char → Option (JVal × List Char)
  | 0, _ => none
  | _ + 1, [] => none
  | fuel + 1, c :: rest =>
    if c = '"' then (parseStrBody rest).map (fun p => (.str p.1, p.2))
    else if c = '[' then
      if (skipWs rest).head? = some ']' then some (.arr [], (skipWs rest).tail)
      else parseArrElems fuel (skipWs rest) []
    else if c = '{' then
      if (skipWs rest).head? = some '}' then some (.obj [], (skipWs rest).tail)
      else parseObjElems fuel (skipWs rest) []
    else if c = 'n' then
      if rest.take 3 = ['u', 'l', 'l'] then some (.null, rest.drop 3) else none
    else if c = 't' then
      if rest.take 3 = ['r', 'u', 'e'] then some (.bool true, rest.drop 3)
      else none
    else if c = 'f' then
      if rest.take 4 = ['a', 'l', 's', 'e'] then some (.bool false, rest.drop 4)
      else none
    else if c == '-' || c.isDigit then
      (parseNum (c :: rest)).map (fun p => (.num p.1, p.2))
    else none

/-- Parse the elements of a non-empty array after `[` and leading
whitespace. -/
def parseArrElems : Nat → List Char → List JVal → Option (JVal × List Char)
  | 0, _, _ => none
  | fuel + 1, s, acc =>
    match parseVal fuel s with
    | none => none
    | some vr =>
      if (skipWs vr.2).head? = some ',' then
        parseArrElems fuel (skipWs ((skipWs vr.2).tail)) (acc ++ [vr.1])
      else if (skipWs vr.2).head? = some ']' then
        some (.arr (acc ++ [vr.1]), (skipWs vr.2).tail)
      else none

/-- Parse the members of a non-empty object after `{` and leading
whitespace. -/
def parseObjElems : Nat → List Char → List (List Char × JVal) →
    Option (JVal × List Char)
  | 0, _, _ => none
  | fuel + 1, s, acc =>
    if s.head? = some '"' then
      match parseStrBody s.tail with
      | none => none
      | some kr =>
        if (skipWs kr.2).head? = some ':' then
          match parseVal fuel (skipWs ((skipWs kr.2).tail)) with
          | none => none
          | some vr =>
            if (skipWs vr.2).head? = some ',' then
              parseObjElems fuel (skipWs ((skipWs vr.2).tail))
                (dInsert acc kr.1 vr.1)
            else if (skipWs vr.2).head? = some '}' then
              some (.obj (dInsert acc kr.1 vr.1), (skipWs vr.2).tail)
            else none
        else none
    else none

end

/-- `json.loads`: parse with surrounding whitespace allowed; anything but
whitespace after the value is an error. -/
def loads (s : List Char) : Option JVal :=
  match parseVal (2 * s.length + 2) (skipWs s) with
  | none => none
  | some (v, r) => if (skipWs r).isEmpty then some v else none

/-- The pure tail of `pif2json` after the regex pass: split on newlines,
join with commas, strip trailing commas, wrap in brackets, parse. -/
def pifAfterClean (cleaned : List Char) : Option (List JVal) :=
  let parts := splitNl cleaned
  let joined := joinComma parts
  let stripped := rstripComma joined
  match loads ('[' :: stripped ++ [']']) with
  | some (.arr xs) => some xs
  | some _ => none
  | none => none

/-- `PIF.pif2json` on already-read text; `none` is an escaping
`json.decoder.JSONDecodeError`. -/
def pif2json (data : List Char) : Option (List JVal) :=
  pifAfterClean (pifClean data)

/-! ## The file handle and the detection / parse entry points -/

/-- An opened text file handle: decoded content and current position. -/
structure FileH where
  content : List Char
  pos : Nat

/-- `file.read()`: return everything from the current position and move
the position to the end. -/
def fread (f : FileH) : List Char × FileH :=
  (f.content.drop f.pos, { content := f.content, pos := f.content.length })

/-- `PIF.is_format` (json.py 228-234): run `pif2json` on the handle,
catching the decode error into `False`. -/
def pifIsFormat (f : FileH) : Bool × FileH :=
  let r := fread f
  ((pif2json r.1).isSome, r.2)

/-- `PIF.parse` (json.py 150-204) up to the external `_sortgroup` call:
read the handle, normalize, process every record. -/
def pifParseF (cfg : PifCfg) (f : FileH) :
    Option (Folders × List Entry) × FileH :=
  let r := fread f
  match pif2json r.1 with
  | none => (none, r.2)
  | some js => (pifProcess cfg js, r.2)

/-! ## Construction and the class-level domain-prefix set
(json.py 106-136)

`PIF.domain_prefixes` is a class attribute; `_load_domain_prefixes`
mutates it in place through `self`. The class-level set is therefore
threaded explicitly: construction receives the current class-level set
and returns the new one, and the set observed by any instance is the
current class-level set. -/

/-- `set.add` (Python sets modelled by membership; insertion order is
irrelevant to every property below). -/
def setAdd (s : List (List Char)) (x : List Char) : List (List Char) :=
  if x ∈ s then s else s ++ [x]

/-- `set.discard`. -/
def setDiscard (s : List (List Char)) (x : List Char) : List (List Char) :=
  s.filter (fun y => y != x)

/-- `PIF._load_domain_prefixes` (json.py 130-136): `prefix[0]` raises
IndexError (`none`) on an empty entry. -/
def loadDomainPrefixes :
    List (List Char) → List (List Char) → Option (List (List Char))
  | [], s => some s
  | p :: rest, s =>
    match p with
    | [] => none
    | '!' :: tail => loadDomainPrefixes rest (setDiscard s tail)
    | _ => loadDomainPrefixes rest (setAdd s p)

/-- The slice of the settings dict read by `PIF.__init__`
(`settings.get('1password', {})` with its three options and their
defaults). -/
structure PifSettings where
  browserpass : Bool := false
  strip_domain_prefixes : Bool := true
  domain_prefixes : List (List Char) := []

/-- The per-instance attributes set by `PIF.__init__`. -/
structure PifInst where
  browserpass : Bool
  strip_domain_prefixes : Bool

/-- `PIF.__init__` (json.py 121-128) acting on the class-level prefix
set: returns the constructed instance and the class-level set after
construction, or `none` if construction raises. -/
def PIFInit (st : PifSettings) (classPrefixes : List (List Char)) :
    Option (PifInst × List (List Char)) :=
  if st.strip_domain_prefixes then
    match loadDomainPrefixes st.domain_prefixes classPrefixes with
    | none => none
    | some s2 =>
      some ({ browserpass := st.browserpass, strip_domain_prefixes := true }, s2)
  else
    some ({ browserpass := st.browserpass, strip_domain_prefixes := false },
          classPrefixes)

/-! ## Well-formed 1PIF inputs as rendered line tokens (for the
normalization round-trip) -/

/-- One line of a legacy 1PIF input: a block-separator marker line
(`***mid***` followed by its whitespace run) or one data line (rendered
with a terminating newline). -/
inductive PifTok where
  | marker : List Char → List Char → PifTok
  | data : List Char → PifTok

/-- Render one token to characters. -/
def renderTok : PifTok → List Char
  | .marker mid ws => '*' :: '*' :: '*' :: (mid ++ ('*' :: '*' :: '*' :: ws))
  | .data l => l ++ ['\n']

/-- Render a token list to the file content. -/
def renderToks (ts : List PifTok) : List Char := (ts.map renderTok).flatten

/-- Well-formedness of one token: marker middles contain no newline and
their whitespace run is non-empty, all whitespace, ending in a newline;
data lines are single-line object literals (brace to brace). -/
def tokWF : PifTok → Bool
  | .marker mid ws =>
    mid.all (fun c => c != '\n') && !ws.isEmpty && ws.all isPySpace &&
      (ws.getLast? == some '\n')
  | .data l =>
    !l.isEmpty && (l.head? == some '{') && (l.getLast? == some '}') &&
      l.all (fun c => c != '\n')

/-- The data lines of a token list, in order. -/
def dataLines (ts : List PifTok) : List (List Char) :=
  ts.filterMap (fun t => match t with | .data l => some l | _ => none)

/-- Whether a token is a marker line. -/
def isMarkerTok : PifTok → Bool
  | .marker _ _ => true
  | .data _ => false

/-- `d2` is `d` with one extra key added to one object somewhere inside
`d` (at the end, as Python dict insertion does; the key must be new for
that object). -/
inductive AddKey : JVal → JVal → Prop
  | top (kvs : List (List Char × JVal)) (k : List Char) (v : JVal)
      (hk : dLookup kvs k = none) :
      AddKey (.obj kvs) (.obj (kvs ++ [(k, v)]))
  | objVal (l r : List (List Char × JVal)) (k : List Char) (v w : JVal) :
      AddKey v w → AddKey (.obj (l ++ (k, v) :: r)) (.obj (l ++ (k, w) :: r))
  | arrElem (l r : List JVal) (x y : JVal) :
      AddKey x y → AddKey (.arr (l ++ x :: r)) (.arr (l ++ y :: r))

/-! # Theorems -/

/-! ## Basic lemmas on the embedded Python operations -/

mutual

theorem JVal.beq_refl : ∀ (a : JVal), JVal.beq a a = true
  | .null => rfl
  | .bool b => by simp [JVal.beq]
  | .num n => by simp [JVal.beq]
  | .str s => by simp [JVal.beq]
  | .arr xs => by rw [JVal.beq]; exact JVal.beqL_refl xs
  | .obj kvs => by rw [JVal.beq]; exact JVal.beqKL_refl kvs

theorem JVal.beqL_refl : ∀ (xs : List JVal), JVal.beqL xs xs = true
  | [] => rfl
  | x :: xs => by
    rw [JVal.beqL]
    simp [JVal.beq_refl x, JVal.beqL_refl xs]

theorem JVal.beqKL_refl : ∀ (kvs : List (List Char × JVal)), JVal.beqKL kvs kvs = true
  | [] => rfl
  | (k, v) :: r => by
    rw [JVal.beqKL]
    simp [JVal.beq_refl v, JVal.beqKL_refl r]

end

theorem dLookup_append (l m : List (List Char × JVal)) (key : List Char) :
    dLookup (l ++ m) key =
      match dLookup l key with
      | some v => some v
      | none => dLookup m key := by
  induction l with
  | nil => simp [dLookup]
  | cons p r ih =>
    obtain ⟨k, v⟩ := p
    by_cases hk : k = key <;> simp [dLookup, hk, ih]

theorem dLookup_append_some {l : List (List Char × JVal)} {key : List Char}
    {v : JVal} (h : dLookup l key = some v) (m : List (List Char × JVal)) :
    dLookup (l ++ m) key = some v := by
  rw [dLookup_append, h]

theorem dLookup_remove_ne (kvs : List (List Char × JVal)) (k k2 : List Char)
    (h : k2 ≠ k) : dLookup (dRemove kvs k) k2 = dLookup kvs k2 := by
  induction kvs with
  | nil => simp [dRemove]
  | cons p r ih =>
    obtain ⟨pk, pv⟩ := p
    by_cases hp : pk = k
    · subst hp
      have h2 : ¬ pk = k2 := fun he => h (he.symm)
      simp [dRemove, dLookup, h2, ih]
    · by_cases hp2 : pk = k2 <;> simp [dRemove, dLookup, hp, hp2, ih, h]

theorem dLookup_remove_self (kvs : List (List Char × JVal)) (k : List Char) :
    dLookup (dRemove kvs k) k = none := by
  induction kvs with
  | nil => simp [dRemove, dLookup]
  | cons p r ih =>
    obtain ⟨pk, pv⟩ := p
    by_cases hp : pk = k <;> simp [dRemove, dLookup, hp, ih]

mutual

theorem JVal.eq_of_beq : ∀ {a b : JVal}, JVal.beq a b = true → a = b
  | .null, .null, _ => rfl
  | .bool _, .bool _, h => by
    simp only [JVal.beq, beq_iff_eq] at h
    exact congrArg JVal.bool h
  | .num _, .num _, h => by
    simp only [JVal.beq, beq_iff_eq] at h
    exact congrArg JVal.num h
  | .str _, .str _, h => by
    simp only [JVal.beq, beq_iff_eq] at h
    exact congrArg JVal.str h
  | .arr _, .arr _, h => by
    rw [JVal.beq] at h
    exact congrArg JVal.arr (JVal.eqL_of_beq h)
  | .obj _, .obj _, h => by
    rw [JVal.beq] at h
    exact congrArg JVal.obj (JVal.eqKL_of_beq h)
  | .null, .bool _, h => by simp [JVal.beq] at h
  | .null, .num _, h => by simp [JVal.beq] at h
  | .null, .str _, h => by simp [JVal.beq] at h
  | .null, .arr _, h => by simp [JVal.beq] at h
  | .null, .obj _, h => by simp [JVal.beq] at h
  | .bool _, .null, h => by simp [JVal.beq] at h
  | .bool _, .num _, h => by simp [JVal.beq] at h
  | .bool _, .str _, h => by simp [JVal.beq] at h
  | .bool _, .arr _, h => by simp [JVal.beq] at h
  | .bool _, .obj _, h => by simp [JVal.beq] at h
  | .num _, .null, h => by simp [JVal.beq] at h
  | .num _, .bool _, h => by simp [JVal.beq] at h
  | .num _, .str _, h => by simp [JVal.beq] at h
  | .num _, .arr _, h => by simp [JVal.beq] at h
  | .num _, .obj _, h => by simp [JVal.beq] at h
  | .str _, .null, h => by simp [JVal.beq] at h
  | .str _, .bool _, h => by simp [JVal.beq] at h
  | .str _, .num _, h => by simp [JVal.beq] at h
  | .str _, .arr _, h => by simp [JVal.beq] at h
  | .str _, .obj _, h => by simp [JVal.beq] at h
  | .arr _, .null, h => by simp [JVal.beq] at h
  | .arr _, .bool _, h => by simp [JVal.beq] at h
  | .arr _, .num _, h => by simp [JVal.beq] at h
  | .arr _, .str _, h => by simp [JVal.beq] at h
  | .arr _, .obj _, h => by simp [JVal.beq] at h
  | .obj _, .null, h => by simp [JVal.beq] at h
  | .obj _, .bool _, h => by simp [JVal.beq] at h
  | .obj _, .num _, h => by simp [JVal.beq] at h
  | .obj _, .str _, h => by simp [JVal.beq] at h
  | .obj _, .arr _, h => by simp [JVal.beq] at h

theorem JVal.eqL_of_beq : ∀ {xs ys : List JVal}, JVal.beqL xs ys = true → xs = ys
  | [], [], _ => rfl
  | [], _ :: _, h => by simp [JVal.beqL] at h
  | _ :: _, [], h => by simp [JVal.beqL] at h
  | x :: xs, y :: ys, h => by
    rw [JVal.beqL] at h
    have h2 := Bool.and_eq_true_iff.mp h
    rw [JVal.eq_of_beq h2.1, JVal.eqL_of_beq h2.2]

theorem JVal.eqKL_of_beq :
    ∀ {xs ys : List (List Char × JVal)}, JVal.beqKL xs ys = true → xs = ys
  | [], [], _ => rfl
  | [], _ :: _, h => by simp [JVal.beqKL] at h
  | _ :: _, [], h => by simp [JVal.beqKL] at h
  | (k, x) :: xs, (l, y) :: ys, h => by
    rw [JVal.beqKL] at h
    have h2 := Bool.and_eq_true_iff.mp h
    have h3 := Bool.and_eq_true_iff.mp h2.1
    have hk : k = l := by simpa using h3.1
    rw [hk, JVal.eq_of_beq h3.2, JVal.eqKL_of_beq h2.2]

end

theorem JVal.beq_iff {a b : JVal} : JVal.beq a b = true ↔ a = b :=
  ⟨JVal.eq_of_beq, fun h => h ▸ JVal.beq_refl a⟩

instance : DecidableEq JVal := fun a b => decidable_of_iff _ JVal.beq_iff

theorem JVal.beq_eq_decide (a b : JVal) : JVal.beq a b = decide (a = b) := by
  by_cases h : a = b
  · simp [h, JVal.beq_refl]
  · simp [h]
    exact Bool.eq_false_iff.mpr (fun hb => h (JVal.eq_of_beq hb))

theorem pyKeyEq_eq_decide (a b : JVal) :
    pyKeyEq a b = decide (keyCanon a = keyCanon b) := by
  rw [pyKeyEq, JVal.beq_eq_decide]

theorem keyCanon_eq_str_iff (x : JVal) (s : List Char) :
    keyCanon x = .str s ↔ x = .str s := by
  cases x <;> simp [keyCanon]

theorem eLookup_cons (k v : JVal) (r : Entry) (key : JVal) :
    eLookup ((k, v) :: r) key =
      if keyCanon k = keyCanon key then some v else eLookup r key := by
  rw [eLookup, pyKeyEq_eq_decide]
  by_cases h : keyCanon k = keyCanon key <;> simp [h]

theorem eLookup_append (a b : Entry) (key : JVal) :
    eLookup (a ++ b) key =
      match eLookup a key with
      | some v => some v
      | none => eLookup b key := by
  induction a with
  | nil => simp [eLookup]
  | cons p r ih =>
    obtain ⟨k, v⟩ := p
    by_cases h : keyCanon k = keyCanon key <;> simp [eLookup_cons, h, ih]

theorem eLookup_map_replace (e : Entry) (k v : JVal)
    (h : (eLookup e k).isSome = true) :
    eLookup (e.map (fun p => if pyKeyEq p.1 k then (p.1, v) else p)) k =
      some v := by
  induction e with
  | nil => simp [eLookup] at h
  | cons p r ih =>
    obtain ⟨pk, pv⟩ := p
    by_cases hb : keyCanon pk = keyCanon k
    · have hb2 : pyKeyEq pk k = true := by
        rw [pyKeyEq_eq_decide]
        simp [hb]
      simp [List.map_cons, hb2, eLookup_cons, hb]
    · have hb2 : pyKeyEq pk k = false := by
        rw [pyKeyEq_eq_decide]
        simp [hb]
      simp [eLookup_cons, hb, hb2] at h ⊢
      exact ih h

theorem eLookup_store_self (e : Entry) (k v : JVal) :
    eLookup (eStore e k v) k = some v := by
  rw [eStore]
  by_cases h : (eLookup e k).isSome
  · simp only [h, if_true]
    exact eLookup_map_replace e k v h
  · simp only [h, if_false, Bool.false_eq_true]
    rw [eLookup_append]
    have h0 : eLookup e k = none := by
      cases he : eLookup e k
      · rfl
      · rw [he] at h
        simp at h
    rw [h0]
    simp [eLookup_cons]

theorem eLookup_map_replace_ne (e : Entry) (k k2 v : JVal)
    (h : keyCanon k2 ≠ keyCanon k) :
    eLookup (e.map (fun p => if pyKeyEq p.1 k then (p.1, v) else p)) k2 =
      eLookup e k2 := by
  induction e with
  | nil => simp [eLookup]
  | cons p r ih =>
    obtain ⟨pk, pv⟩ := p
    by_cases hb : keyCanon pk = keyCanon k
    · have hne : ¬ keyCanon pk = keyCanon k2 := by
        rw [hb]
        exact fun he => h he.symm
      have hb2 : pyKeyEq pk k = true := by
        rw [pyKeyEq_eq_decide]
        simp [hb]
      simp [eLookup_cons, hb2, hne, ih]
    · have hb2 : pyKeyEq pk k = false := by
        rw [pyKeyEq_eq_decide]
        simp [hb]
      by_cases hp2 : keyCanon pk = keyCanon k2
      · simp [eLookup_cons, hb2, hp2, ih]
      · simp [eLookup_cons, hb2, hp2, ih]

theorem eLookup_store_ne (e : Entry) (k k2 v : JVal)
    (h : keyCanon k2 ≠ keyCanon k) :
    eLookup (eStore e k v) k2 = eLookup e k2 := by
  rw [eStore]
  by_cases hs : (eLookup e k).isSome
  · simp only [hs, if_true]
    exact eLookup_map_replace_ne e k k2 v h
  · simp only [hs, if_false, Bool.false_eq_true]
    rw [eLookup_append]
    have hne : ¬ keyCanon k = keyCanon k2 := fun he => h he.symm
    cases he : eLookup e k2 <;>
      simp [eLookup, eLookup_cons, hne, pyKeyEq_eq_decide]

theorem eInsert_hashable (e : Entry) (k v : JVal) (h : hashableKey k = true) :
    eInsert e k v = some (eStore e k v) := by
  rw [eInsert, if_pos h]

theorem keysGet_str (keys : List (List Char × List Char)) (s : List Char) :
    keysGet keys (.str s) = some (.str ((sLookup keys s).getD s)) := by
  rw [keysGet]
  cases sLookup keys s <;> rfl

theorem keysGet_some_hashable (keys : List (List Char × List Char))
    (k K : JVal) (h : keysGet keys k = some K) : hashableKey K = true := by
  cases k with
  | str s =>
    rw [keysGet_str] at h
    simp only [Option.some.injEq] at h
    rw [← h]
    rfl
  | arr xs =>
    have hn : keysGet keys (.arr xs) = none := rfl
    rw [hn] at h
    cases h
  | obj kvs =>
    have hn : keysGet keys (.obj kvs) = none := rfl
    rw [hn] at h
    cases h
  | null =>
    rw [show keysGet keys .null = some .null from rfl] at h
    simp only [Option.some.injEq] at h
    rw [← h]
    rfl
  | bool b =>
    rw [show keysGet keys (.bool b) = some (.bool b) from rfl] at h
    simp only [Option.some.injEq] at h
    rw [← h]
    rfl
  | num n =>
    rw [show keysGet keys (.num n) = some (.num n) from rfl] at h
    simp only [Option.some.injEq] at h
    rw [← h]
    rfl

theorem ensureheader_ty_obj (kvs : List (List Char × JVal)) (t : PyType) :
    ensureheader (.obj kvs) (.ty t) = some (pyIsinstance (.obj kvs) t) := by
  rw [ensureheader] <;> simp

theorem ensureheader_ty_arr (xs : List JVal) (t : PyType) :
    ensureheader (.arr xs) (.ty t) = some (pyIsinstance (.arr xs) t) := by
  rw [ensureheader] <;> simp

theorem ensureheader_arr_nil (xs : List JVal) :
    ensureheader (.arr xs) (.arr []) = if xs.isEmpty then some true else none := by
  rw [ensureheader]

theorem ensureheader_arr_cons (xs : List JVal) (h0 : HVal) (hs : List HVal) :
    ensureheader (.arr xs) (.arr (h0 :: hs)) = ensureArr xs h0 := by
  rw [ensureheader]

theorem ensureheader_obj_obj (kvs : List (List Char × JVal)) (hk : List (List Char × HVal)) :
    ensureheader (.obj kvs) (.obj hk) = ensureObj kvs hk := by
  rw [ensureheader]

theorem ensureheader_obj_arr (kvs : List (List Char × JVal)) (hs : List HVal) :
    ensureheader (.obj kvs) (.arr hs) = some false := by
  rw [ensureheader] <;> simp

theorem ensureheader_arr_obj (xs : List JVal) (hk : List (List Char × HVal)) :
    ensureheader (.arr xs) (.obj hk) = some false := by
  rw [ensureheader] <;> simp

theorem ensureheader_obj_lit (kvs : List (List Char × JVal)) (h : HVal)
    (h1 : ∀ t, h ≠ .ty t) (h2 : ∀ hs, h ≠ .arr hs) (h3 : ∀ hk, h ≠ .obj hk) :
    ensureheader (.obj kvs) h = some false := by
  cases h with
  | ty t => exact absurd rfl (h1 t)
  | arr hs => exact absurd rfl (h2 hs)
  | obj hk => exact absurd rfl (h3 hk)
  | null => rw [ensureheader] <;> simp
  | bool b => rw [ensureheader] <;> simp
  | num n => rw [ensureheader] <;> simp
  | str s => rw [ensureheader] <;> simp

theorem ensureheader_arr_lit (xs : List JVal) (h : HVal)
    (h1 : ∀ t, h ≠ .ty t) (h2 : ∀ hs, h ≠ .arr hs) :
    ensureheader (.arr xs) h = some false := by
  cases h with
  | ty t => exact absurd rfl (h1 t)
  | arr hs => exact absurd rfl (h2 hs)
  | obj hk => rw [ensureheader] <;> simp
  | null => rw [ensureheader] <;> simp
  | bool b => rw [ensureheader] <;> simp
  | num n => rw [ensureheader] <;> simp
  | str s => rw [ensureheader] <;> simp

theorem ensureArr_true_iff (xs : List JVal) (h0 : HVal) :
    ensureArr xs h0 = some true ↔ ∀ x ∈ xs, ensureheader x h0 = some true := by
  induction xs with
  | nil => simp [ensureArr]
  | cons x xs ih =>
    rw [ensureArr]
    cases hx : ensureheader x h0 with
    | none => simp [hx]
    | some b =>
      cases b
      · simp [hx]
      · simp [hx, ih]

theorem ensureObj_true_iff (kvs : List (List Char × JVal))
    (hk : List (List Char × HVal)) :
    ensureObj kvs hk = some true ↔
      ∀ p ∈ hk, ∃ dv, dLookup kvs p.1 = some dv ∧ ensureheader dv p.2 = some true := by
  induction hk with
  | nil => simp [ensureObj]
  | cons q rest ih =>
    obtain ⟨k, sv⟩ := q
    rw [ensureObj]
    cases hdv : dLookup kvs k with
    | none => simp [hdv]
    | some dv =>
      cases hv : ensureheader dv sv with
      | none => simp [hdv, hv]
      | some b =>
        cases b
        · simp [hdv, hv]
        · simp [hdv, hv, ih]

theorem ensureheader_obj_null (kvs : List (List Char × JVal)) :
    ensureheader (.obj kvs) .null = some false := by
  rw [ensureheader] <;> simp

theorem ensureheader_obj_bool (kvs : List (List Char × JVal)) (b : Bool) :
    ensureheader (.obj kvs) (.bool b) = some false := by
  rw [ensureheader] <;> simp

theorem ensureheader_obj_num (kvs : List (List Char × JVal)) (n : Int) :
    ensureheader (.obj kvs) (.num n) = some false := by
  rw [ensureheader] <;> simp

theorem ensureheader_obj_str (kvs : List (List Char × JVal)) (s : List Char) :
    ensureheader (.obj kvs) (.str s) = some false := by
  rw [ensureheader] <;> simp

theorem ensureheader_arr_null (xs : List JVal) :
    ensureheader (.arr xs) .null = some false := by
  rw [ensureheader] <;> simp

theorem ensureheader_arr_bool (xs : List JVal) (b : Bool) :
    ensureheader (.arr xs) (.bool b) = some false := by
  rw [ensureheader] <;> simp

theorem ensureheader_arr_num (xs : List JVal) (n : Int) :
    ensureheader (.arr xs) (.num n) = some false := by
  rw [ensureheader] <;> simp

theorem ensureheader_arr_str (xs : List JVal) (s : List Char) :
    ensureheader (.arr xs) (.str s) = some false := by
  rw [ensureheader] <;> simp

theorem addKey_true (d d2 : JVal) (ha : AddKey d d2) :
    ∀ s, ensureheader d s = some true → ensureheader d2 s = some true := by
  induction ha with
  | top kvs k v hk =>
    intro s hs
    cases s with
    | ty t =>
      rw [ensureheader_ty_obj] at hs ⊢
      cases t <;> simpa [pyIsinstance] using hs
    | null => simp [ensureheader_obj_null] at hs
    | bool b => simp [ensureheader_obj_bool] at hs
    | num n => simp [ensureheader_obj_num] at hs
    | str t => simp [ensureheader_obj_str] at hs
    | arr hs2 => simp [ensureheader_obj_arr] at hs
    | obj hk2 =>
      rw [ensureheader_obj_obj, ensureObj_true_iff] at hs ⊢
      intro p hp
      obtain ⟨dv, hdv, htrue⟩ := hs p hp
      exact ⟨dv, dLookup_append_some hdv _, htrue⟩
  | objVal l r k v w ha ih =>
    intro s hs
    cases s with
    | ty t =>
      rw [ensureheader_ty_obj] at hs ⊢
      cases t <;> simpa [pyIsinstance] using hs
    | null => simp [ensureheader_obj_null] at hs
    | bool b => simp [ensureheader_obj_bool] at hs
    | num n => simp [ensureheader_obj_num] at hs
    | str t => simp [ensureheader_obj_str] at hs
    | arr hs2 => simp [ensureheader_obj_arr] at hs
    | obj hk2 =>
      rw [ensureheader_obj_obj, ensureObj_true_iff] at hs ⊢
      intro p hp
      obtain ⟨dv, hdv, htrue⟩ := hs p hp
      rw [dLookup_append] at hdv ⊢
      cases hl : dLookup l p.1 with
      | some u =>
        rw [hl] at hdv
        exact ⟨dv, hdv, htrue⟩
      | none =>
        rw [hl] at hdv
        rw [dLookup] at hdv ⊢
        by_cases hkp : k = p.1
        · rw [if_pos hkp] at hdv ⊢
          injection hdv with hdv2
          exact ⟨w, rfl, ih p.2 (hdv2 ▸ htrue)⟩
        · rw [if_neg hkp] at hdv ⊢
          exact ⟨dv, hdv, htrue⟩
  | arrElem l r x y ha ih =>
    intro s hs
    cases s with
    | ty t =>
      rw [ensureheader_ty_arr] at hs ⊢
      cases t <;> simpa [pyIsinstance] using hs
    | null => simp [ensureheader_arr_null] at hs
    | bool b => simp [ensureheader_arr_bool] at hs
    | num n => simp [ensureheader_arr_num] at hs
    | str t => simp [ensureheader_arr_str] at hs
    | obj hk2 => simp [ensureheader_arr_obj] at hs
    | arr hs2 =>
      cases hs2 with
      | nil =>
        rw [ensureheader_arr_nil] at hs
        simp at hs
      | cons h0 hs3 =>
        rw [ensureheader_arr_cons, ensureArr_true_iff] at hs ⊢
        intro z hz
        rcases List.mem_append.mp hz with hz1 | hz2
        · exact hs z (List.mem_append.mpr (Or.inl hz1))
        · rcases List.mem_cons.mp hz2 with hz3 | hz4
          · subst hz3
            exact ih h0 (hs x (List.mem_append.mpr (Or.inr (List.mem_cons_self x r))))
          · exact hs z (List.mem_append.mpr (Or.inr (List.mem_cons_of_mem x hz4)))

theorem ensureObj_remove_false (kvs : List (List Char × JVal))
    (hk : List (List Char × HVal)) (k : List Char)
    (hmem : ∃ s0, (k, s0) ∈ hk)
    (hall : ∀ p ∈ hk, ∃ dv, dLookup kvs p.1 = some dv ∧
      ensureheader dv p.2 = some true) :
    ensureObj (dRemove kvs k) hk = some false := by
  induction hk with
  | nil =>
    obtain ⟨s0, h⟩ := hmem
    simp at h
  | cons q rest ih =>
    obtain ⟨k0, sv⟩ := q
    by_cases hkk : k0 = k
    · subst hkk
      rw [ensureObj]
      cases hdv2 : dLookup (dRemove kvs k0) k0 with
      | none => rfl
      | some dv =>
        rw [dLookup_remove_self] at hdv2
        cases hdv2
    · obtain ⟨dv, hdv, htrue⟩ := hall (k0, sv) (List.mem_cons_self _ _)
      have h1 : dLookup (dRemove kvs k) k0 = some dv := by
        rw [dLookup_remove_ne kvs k k0 hkk]
        exact hdv
      rw [ensureObj]
      cases hdv2 : dLookup (dRemove kvs k) k0 with
      | none => rw [h1] at hdv2
      | some dv2 =>
        rw [h1] at hdv2
        injection hdv2 with hdv3
        subst hdv3
        simp only [htrue]
        refine ih ?_ ?_
        · obtain ⟨s0, hm⟩ := hmem
          rcases List.mem_cons.mp hm with he | h2
          · exact absurd (congrArg Prod.fst he).symm hkk
          · exact ⟨s0, h2⟩
        · intro p hp
          exact hall p (List.mem_cons_of_mem _ hp)

/-- C1: refuted as stated - the structural matcher is not total. On a
document holding a non-empty list at a position where the schema holds an
empty list, `_ensureheader` evaluates `header[0]` inside the per-element
loop and raises IndexError (modelled as `none`) instead of returning a
boolean; `checkheader` propagates the exception. This contradicts the
function's own docstring (`:return bool: True or False`). -/
theorem c1_matcher_empty_list_schema_raises :
    ensureheader (.arr [.num 1]) (.arr []) = none ∧
    checkheader (.arr [.num 1]) (.arr []) = none := by
  have h : ensureheader (.arr [.num 1]) (.arr []) = none := by
    rw [ensureheader_arr_nil]
    simp
  exact ⟨h, h⟩

/-- C8: the matcher treats an object schema as a minimum required shape.
If `matches(d, s)` is `True` then adding an extra key to any object
inside `d` keeps it `True`; and for an object schema requiring key `k`,
removing `k` from a matching document makes the result `False`. In
particular the schema requiring a string under "name" matches the
document with keys "name" and "extra" but not the document with key
"extra" alone. -/
theorem c8_matcher_minimum_shape :
    (∀ d d2 s, AddKey d d2 → ensureheader d s = some true →
        ensureheader d2 s = some true) ∧
    (∀ (kvs : List (List Char × JVal)) (hk : List (List Char × HVal))
        (k : List Char) (s0 : HVal), (k, s0) ∈ hk →
        ensureheader (.obj kvs) (.obj hk) = some true →
        ensureheader (.obj (dRemove kvs k)) (.obj hk) = some false) ∧
    ensureheader (.obj [(nameK, .str ("x".toList)), (("extra".toList), .num 1)])
        (.obj [(nameK, .ty .pystr)]) = some true ∧
    ensureheader (.obj [(("extra".toList), .num 1)])
        (.obj [(nameK, .ty .pystr)]) = some false := by
  refine ⟨fun d d2 s ha h => addKey_true d d2 ha s h, ?_, ?_, ?_⟩
  · intro kvs hk k s0 hmem htrue
    rw [ensureheader_obj_obj] at htrue ⊢
    rw [ensureObj_true_iff] at htrue
    exact ensureObj_remove_false kvs hk k ⟨s0, hmem⟩ htrue
  · rw [ensureheader_obj_obj, ensureObj]
    simp +decide [dLookup, nameK, ensureheader, pyIsinstance, ensureObj]
  · rw [ensureheader_obj_obj, ensureObj]
    simp +decide [dLookup, nameK]

/-- Witness for C8: both general parts applied at the example documents:
adding the "extra" key to the matching document keeps the match, and
removing "name" from it turns the match into `False`. -/
theorem c8_matcher_minimum_shape_witness :
    ensureheader (.obj ([(nameK, .str ("x".toList))] ++ [(("extra".toList), .num 1)]))
        (.obj [(nameK, .ty .pystr)]) = some true ∧
    ensureheader (.obj (dRemove [(nameK, .str ("x".toList))] nameK))
        (.obj [(nameK, .ty .pystr)]) = some false := by
  constructor
  · exact c8_matcher_minimum_shape.1
      (.obj [(nameK, .str ("x".toList))]) _ _
      (AddKey.top _ ("extra".toList) (.num 1) (by simp +decide [dLookup, nameK]))
      (by rw [ensureheader_obj_obj, ensureObj]
          simp +decide [dLookup, nameK, ensureheader, pyIsinstance, ensureObj])
  · exact c8_matcher_minimum_shape.2.1 _ _ nameK (.ty .pystr) (by simp)
      (by rw [ensureheader_obj_obj, ensureObj]
          simp +decide [dLookup, nameK, ensureheader, pyIsinstance, ensureObj])

theorem loadDomainPrefixes_total (entries : List (List Char))
    (s : List (List Char)) (h : [] ∉ entries) :
    (loadDomainPrefixes entries s).isSome := by
  induction entries generalizing s with
  | nil => simp [loadDomainPrefixes]
  | cons p rest ih =>
    have hp : p ≠ [] := fun he => h (he ▸ List.mem_cons_self p rest)
    have hrest : [] ∉ rest := fun hm => h (List.mem_cons_of_mem p hm)
    cases p with
    | nil => exact absurd rfl hp
    | cons c tail =>
      by_cases hc : c = '!'
      · subst hc
        rw [loadDomainPrefixes]
        exact ih _ hrest
      · rw [loadDomainPrefixes]
        · exact ih _ hrest
        all_goals simp_all

theorem loadDomainPrefixes_bang (q : List Char) (s : List (List Char)) :
    loadDomainPrefixes [('!' :: q)] s = some (setDiscard s q) := rfl

theorem loadDomainPrefixes_add (p : List Char) (s : List (List Char))
    (h1 : p ≠ []) (h2 : p.head? ≠ some '!') :
    loadDomainPrefixes [p] s = some (setAdd s p) := by
  cases p with
  | nil => exact absurd rfl h1
  | cons c tail =>
    have hc : ¬ c = '!' := by
      intro he
      exact h2 (by rw [he]; rfl)
    rw [loadDomainPrefixes]
    · rfl
    all_goals simp_all

theorem setDiscard_not_mem (q : List Char) (s : List (List Char)) :
    q ∉ setDiscard s q := by
  simp [setDiscard, List.mem_filter]

theorem setAdd_mem (p : List Char) (s : List (List Char)) :
    p ∈ setAdd s p := by
  rw [setAdd]
  by_cases h : p ∈ s <;> simp [h]

/-- C5 amended: for every settings value with `strip_domain_prefixes`
enabled, construction succeeds provided every `domain_prefixes` entry is
non-empty (an empty-string entry makes `prefix[0]` raise IndexError and
construction fail); a `'!'`-prefixed entry removes the remainder from the
set, and any other non-empty entry is added to the set. -/
theorem c5_domain_prefix_directives :
    (∀ (entries : List (List Char)) (s : List (List Char)), [] ∉ entries →
        (loadDomainPrefixes entries s).isSome) ∧
    (∀ (st : PifSettings), st.strip_domain_prefixes = true →
        [] ∉ st.domain_prefixes → (PIFInit st defaultPrefixes).isSome) ∧
    (∀ (q : List Char) (s : List (List Char)),
        loadDomainPrefixes [('!' :: q)] s = some (setDiscard s q) ∧
        q ∉ setDiscard s q) ∧
    (∀ (p : List Char) (s : List (List Char)), p ≠ [] → p.head? ≠ some '!' →
        loadDomainPrefixes [p] s = some (setAdd s p) ∧ p ∈ setAdd s p) := by
  refine ⟨loadDomainPrefixes_total, ?_, ?_, ?_⟩
  · intro st hstrip hne
    rw [PIFInit]
    rw [hstrip]
    simp only [if_true]
    have := loadDomainPrefixes_total st.domain_prefixes defaultPrefixes hne
    cases hl : loadDomainPrefixes st.domain_prefixes defaultPrefixes with
    | none => rw [hl] at this; simp at this
    | some s2 => simp
  · intro q s
    exact ⟨loadDomainPrefixes_bang q s, setDiscard_not_mem q s⟩
  · intro p s h1 h2
    exact ⟨loadDomainPrefixes_add p s h1 h2, setAdd_mem p s⟩

/-- Counterexample to C5 as stated: supplying the empty string as a
`domain_prefixes` entry does not add it to the set - `prefix[0]` raises
IndexError and construction fails. -/
theorem c5_empty_entry_raises :
    loadDomainPrefixes [([] : List Char)] defaultPrefixes = none ∧
    PIFInit { browserpass := false, strip_domain_prefixes := true,
              domain_prefixes := [[]] } defaultPrefixes = none :=
  ⟨rfl, rfl⟩

/-- Witness for C5 at concrete inputs: a '!'-entry removal and a plain
addition both succeed, and a construction with non-empty entries
succeeds. -/
theorem c5_domain_prefix_directives_witness :
    loadDomainPrefixes [('!' :: ("www".toList))] defaultPrefixes =
      some (setDiscard defaultPrefixes ("www".toList)) ∧
    loadDomainPrefixes [("corp".toList)] defaultPrefixes =
      some (setAdd defaultPrefixes ("corp".toList)) ∧
    (PIFInit { browserpass := false, strip_domain_prefixes := true,
               domain_prefixes := [("corp".toList)] } defaultPrefixes).isSome := by
  refine ⟨(c5_domain_prefix_directives.2.2.1 ("www".toList) defaultPrefixes).1,
          (c5_domain_prefix_directives.2.2.2 ("corp".toList) defaultPrefixes
            (by simp) (by simp)).1,
          c5_domain_prefix_directives.2.1
            { browserpass := false, strip_domain_prefixes := true,
              domain_prefixes := [("corp".toList)] } rfl (by simp)⟩

/-- Counterexample to C4 as stated: construct a first `PIF` instance with
the directive removing "www", then a second instance with default
settings. The class-level set left by the first construction is what the
second construction starts from and returns unchanged: the second
instance observes a set that lacks "www", not the unmodified default
set. -/
theorem c4_second_instance_sees_mutation :
    PIFInit { browserpass := false, strip_domain_prefixes := true,
              domain_prefixes := [('!' :: ("www".toList))] } defaultPrefixes =
      some ({ browserpass := false, strip_domain_prefixes := true },
            setDiscard defaultPrefixes ("www".toList)) ∧
    PIFInit {} (setDiscard defaultPrefixes ("www".toList)) =
      some ({ browserpass := false, strip_domain_prefixes := true },
            setDiscard defaultPrefixes ("www".toList)) ∧
    ("www".toList) ∈ defaultPrefixes ∧
    ("www".toList) ∉ setDiscard defaultPrefixes ("www".toList) ∧
    setDiscard defaultPrefixes ("www".toList) ≠ defaultPrefixes := by
  refine ⟨rfl, rfl, by decide, by decide, by decide⟩

/-- C4 amended: `PIF.domain_prefixes` is class-level state shared across
instances. Construction with `strip_domain_prefixes` enabled applies the
directives to the current class-level set and the result persists: a
later construction with no directives observes exactly the set left
behind (not the unmodified default), and a construction with
`strip_domain_prefixes` disabled leaves the set untouched. -/
theorem c4_prefixes_shared_across_instances :
    (∀ (bp : Bool) (s : List (List Char)),
        PIFInit { browserpass := bp, strip_domain_prefixes := true,
                  domain_prefixes := [] } s =
          some ({ browserpass := bp, strip_domain_prefixes := true }, s)) ∧
    (∀ (st : PifSettings) (s s2 : List (List Char)) (inst : PifInst),
        st.strip_domain_prefixes = true →
        PIFInit st s = some (inst, s2) →
        loadDomainPrefixes st.domain_prefixes s = some s2) ∧
    (∀ (bp : Bool) (dp : List (List Char)) (s : List (List Char)),
        PIFInit { browserpass := bp, strip_domain_prefixes := false,
                  domain_prefixes := dp } s =
          some ({ browserpass := bp, strip_domain_prefixes := false }, s)) := by
  refine ⟨fun bp s => rfl, ?_, fun bp dp s => rfl⟩
  intro st s s2 inst hstrip h
  rw [PIFInit, hstrip] at h
  simp only [if_true] at h
  cases hl : loadDomainPrefixes st.domain_prefixes s with
  | none => rw [hl] at h; cases h
  | some s3 =>
    rw [hl] at h
    simp at h
    rw [h.2]

/-- Witness for C4 at a concrete input: the second (default-settings)
construction returns the mutated class-level set it was given. -/
theorem c4_prefixes_shared_witness :
    PIFInit { browserpass := false, strip_domain_prefixes := true,
              domain_prefixes := [] }
        (setDiscard defaultPrefixes ("www".toList)) =
      some ({ browserpass := false, strip_domain_prefixes := true },
            setDiscard defaultPrefixes ("www".toList)) ∧
    loadDomainPrefixes [('!' :: ("www".toList))] defaultPrefixes =
      some (setDiscard defaultPrefixes ("www".toList)) := by
  refine ⟨c4_prefixes_shared_across_instances.1 false _, ?_⟩
  exact c4_prefixes_shared_across_instances.2.1
    { browserpass := false, strip_domain_prefixes := true,
      domain_prefixes := [('!' :: ("www".toList))] }
    defaultPrefixes (setDiscard defaultPrefixes ("www".toList))
    { browserpass := false, strip_domain_prefixes := true } rfl rfl

/-! ## C6: trashed records contribute nothing -/

theorem pifFold_append (cfg : PifCfg) (a b : List JVal)
    (st : Folders × List Entry) :
    (a ++ b).foldlM (processItem cfg) st =
      (a.foldlM (processItem cfg) st).bind
        (fun st2 => b.foldlM (processItem cfg) st2) := by
  induction a generalizing st with
  | nil => simp
  | cons x a ih =>
    simp only [List.cons_append, List.foldlM_cons]
    cases hx : processItem cfg st x with
    | none => simp
    | some st2 => simp [ih]

theorem processItem_trashed (cfg : PifCfg) (st : Folders × List Entry)
    (kvs : List (List Char × JVal))
    (htr : dLookup kvs trashedK = some (.bool true)) :
    processItem cfg st (.obj kvs) = some st := by
  simp [processItem, dGetD, htr, pyTruthy]

/-- C6: a record whose `trashed` key is present and true contributes
nothing to `PIF.parse`: processing any record list containing it yields
exactly the folder map and entry list obtained without it, regardless of
the record's `typeName` discriminator. -/
theorem c6_trashed_contributes_nothing (cfg : PifCfg) (pre post : List JVal)
    (kvs : List (List Char × JVal))
    (htr : dLookup kvs trashedK = some (.bool true)) :
    pifProcess cfg (pre ++ .obj kvs :: post) = pifProcess cfg (pre ++ post) := by
  rw [pifProcess, pifProcess, pifFold_append, pifFold_append]
  cases hpre : pre.foldlM (processItem cfg) (([], []) : Folders × List Entry) with
  | none => simp
  | some st =>
    simp only [Option.some_bind, List.foldlM_cons]
    rw [processItem_trashed cfg st kvs htr]
    simp

/-- Witness for C6: a concrete trashed folder-typed record between two
webform records contributes neither an entry nor a folder. -/
theorem c6_trashed_contributes_nothing_witness :
    pifProcess
      { browserpass := false, strip := true, prefixes := defaultPrefixes,
        keys := [], cleanDom := id }
      ([.obj [(typeNameK, .str webformTypeS)]] ++
        .obj [(trashedK, .bool true), (typeNameK, .str folderTypeS),
              (uuidK, .str ("u1".toList))] ::
        [.obj [(typeNameK, .str webformTypeS)]]) =
    pifProcess
      { browserpass := false, strip := true, prefixes := defaultPrefixes,
        keys := [], cleanDom := id }
      ([.obj [(typeNameK, .str webformTypeS)]] ++
        [.obj [(typeNameK, .str webformTypeS)]]) :=
  c6_trashed_contributes_nothing _ _ _ _ (by simp [dLookup, trashedK])

/-! ## C9: the entry key of a secureContents field -/

/-- Counterexample to C9 as stated: in a field whose 'designation' key is
present but holds the empty string, the claim says the (present)
designation is used, so with an empty key map the entry key would be the
empty string; the code instead falls back to 'name' because `designation
or name` tests truthiness, not presence. -/
theorem c9_present_empty_designation_uses_name :
    processItem { browserpass := false, strip := true,
                  prefixes := defaultPrefixes, keys := [], cleanDom := id }
        ([], [])
        (.obj [(typeNameK, .str webformTypeS),
               (secureContentsK, .obj [(fieldsK, .arr
                 [.obj [(designationK, .str []), (nameK, .str ("user".toList)),
                        (valueK, .str ("v".toList))]])])]) =
      some ([], [[(.str ("user".toList), .str ("v".toList))]]) ∧
    eLookup [(.str ("user".toList), .str ("v".toList))] (.str []) = none ∧
    eLookup [(.str ("user".toList), .str ("v".toList))]
      (.str ("user".toList)) = some (.str ("v".toList)) := by
  refine ⟨rfl, rfl, ?_⟩
  simp [eLookup_cons]

/-- C9 (amended): the Entry key of a `secureContents.fields` element is
`designation` if that value is present and truthy, otherwise `name` (the
code computes `designation or name`, testing truthiness rather than
presence); the chosen value is then resolved through the external key
map, falling back to itself when unmapped. When the chosen value is a
truthy unhashable list or dict, `keys.get` raises TypeError and no entry
is emitted. Shown on a single-field credential record. -/
theorem c9_field_key_resolution (keys : List (List Char × List Char))
    (fkv : List (List Char × JVal)) (strip : Bool) (pfx : List (List Char))
    (cd : List Char → List Char) (fol : Folders) (data : List Entry) :
    (∀ K, fieldEntryKey keys fkv = some K →
      processItem { browserpass := false, strip := strip, prefixes := pfx,
                    keys := keys, cleanDom := cd } (fol, data)
          (.obj [(typeNameK, .str webformTypeS),
                 (secureContentsK, .obj [(fieldsK, .arr [.obj fkv])])]) =
        some (fol, data ++ [[(K, dGetD fkv valueK (.str []))]])) ∧
    (fieldEntryKey keys fkv = none →
      processItem { browserpass := false, strip := strip, prefixes := pfx,
                    keys := keys, cleanDom := cd } (fol, data)
          (.obj [(typeNameK, .str webformTypeS),
                 (secureContentsK, .obj [(fieldsK, .arr [.obj fkv])])]) =
        none) ∧
    (pyTruthy (dGetD fkv designationK (.str [])) = true →
        fieldEntryKey keys fkv =
          keysGet keys (dGetD fkv designationK (.str []))) ∧
    (pyTruthy (dGetD fkv designationK (.str [])) = false →
        fieldEntryKey keys fkv = keysGet keys (dGetD fkv nameK (.str []))) ∧
    (∀ s, sLookup keys s = none → keysGet keys (.str s) = some (.str s)) ∧
    (∀ s c, sLookup keys s = some c →
        keysGet keys (.str s) = some (.str c)) := by
  refine ⟨?_, ?_, ?_, ?_, ?_, ?_⟩
  · intro K hK
    have hha : hashableKey K = true := by
      rw [fieldEntryKey] at hK
      exact keysGet_some_hashable _ _ _ hK
    have h0 : foldFields keys [.obj fkv] [] =
        some [(K, dGetD fkv valueK (.str []))] := by
      rw [foldFields, hK]
      show (match eInsert [] K (dGetD fkv valueK (.str [])) with
            | none => none
            | some e2 => foldFields keys [] e2) =
        some [(K, dGetD fkv valueK (.str []))]
      rw [eInsert_hashable _ _ _ hha]
      rfl
    simp +decide [processItem, dGetD, dLookup, jEqStr, asIter, h0, dRemove,
      dUpdate, pyTruthy, ignoreSet, typeNameK, secureContentsK, fieldsK,
      sectionsK, trashedK, webformTypeS, folderTypeS, locationK,
      List.foldlM]
  · intro hK
    have h0 : foldFields keys [.obj fkv] [] = none := by
      rw [foldFields, hK]
    simp +decide [processItem, dGetD, dLookup, jEqStr, asIter, h0, dRemove,
      dUpdate, pyTruthy, typeNameK, secureContentsK, fieldsK,
      sectionsK, trashedK, webformTypeS, folderTypeS, locationK]
  · intro h
    rw [fieldEntryKey]
    simp [h]
  · intro h
    rw [fieldEntryKey]
    simp [h]
  · intro s h
    rw [keysGet, h]
  · intro s c h
    rw [keysGet, h]

/-- Witness for C9 at a concrete single-field record (no designation, so
the name is used and, with an empty key map, kept unchanged). -/
theorem c9_field_key_resolution_witness :
    processItem { browserpass := false, strip := true,
                  prefixes := defaultPrefixes, keys := [], cleanDom := id }
        ([], [])
        (.obj [(typeNameK, .str webformTypeS),
               (secureContentsK, .obj [(fieldsK, .arr
                 [.obj [(nameK, .str ("user".toList)),
                        (valueK, .str ("v".toList))]])])]) =
      some ([], [[(.str ("user".toList), .str ("v".toList))]]) ∧
    fieldEntryKey [] [(nameK, .str ("user".toList)),
                      (valueK, .str ("v".toList))] =
      keysGet [] (dGetD [(nameK, .str ("user".toList)),
                         (valueK, .str ("v".toList))] nameK (.str [])) ∧
    keysGet [] (.str ("user".toList)) = some (.str ("user".toList)) := by
  refine ⟨?_, ?_, ?_⟩
  · have h1 := (c9_field_key_resolution []
      [(nameK, .str ("user".toList)), (valueK, .str ("v".toList))]
      true defaultPrefixes id [] []).1 (.str ("user".toList)) rfl
    simpa using h1
  · exact (c9_field_key_resolution []
      [(nameK, .str ("user".toList)), (valueK, .str ("v".toList))]
      true defaultPrefixes id [] []).2.2.2.1 rfl
  · exact (c9_field_key_resolution []
      [(nameK, .str ("user".toList)), (valueK, .str ("v".toList))]
      true defaultPrefixes id [] []).2.2.2.2.1 ("user".toList) rfl

/-! ## C7: one-time-password discovery -/

theorem findOtpFields_ok (fl : List JVal)
    (h : ∀ f ∈ fl, fieldVOk f = true) :
    findOtpFields fl = some ((fl.filterMap fieldOtpVal).head?) := by
  induction fl with
  | nil => simp [findOtpFields]
  | cons f rest ih =>
    have hf := h f (List.mem_cons_self f rest)
    have hrest : ∀ g ∈ rest, fieldVOk g = true :=
      fun g hg => h g (List.mem_cons_of_mem f hg)
    cases f with
    | obj fkv =>
      rw [findOtpFields]
      cases hv : dGetD fkv vK .null with
      | str s =>
        by_cases hs0 : s = []
        · subst hs0
          simp +decide [pyTruthy, List.filterMap_cons, fieldOtpVal, hv,
            ih hrest]
        · have hs : pyTruthy (.str s) = true := by simp [pyTruthy, hs0]
          simp only [hs, if_true]
          by_cases hst : startsWithL otpPfxS s = true
          · simp [hst, List.filterMap_cons, fieldOtpVal, hv]
          · have hst2 : startsWithL otpPfxS s = false :=
              Bool.eq_false_iff.mpr hst
            simp [hst2, List.filterMap_cons, fieldOtpVal, hv, ih hrest]
      | null => simp [pyTruthy, List.filterMap_cons, fieldOtpVal, hv, ih hrest]
      | bool b =>
        have hb : b = false := by
          simp only [fieldVOk, hv] at hf
          simpa [pyTruthy] using hf
        subst hb
        simp [pyTruthy, List.filterMap_cons, fieldOtpVal, hv, ih hrest]
      | num n =>
        have hb : n = 0 := by
          simp only [fieldVOk, hv] at hf
          simpa [pyTruthy] using hf
        subst hb
        simp [pyTruthy, List.filterMap_cons, fieldOtpVal, hv, ih hrest]
      | arr xs =>
        have hb : xs = [] := by
          simp only [fieldVOk, hv] at hf
          simpa [pyTruthy] using hf
        subst hb
        simp [pyTruthy, List.filterMap_cons, fieldOtpVal, hv, ih hrest]
      | obj okvs =>
        have hb : okvs = [] := by
          simp only [fieldVOk, hv] at hf
          simpa [pyTruthy] using hf
        subst hb
        simp [pyTruthy, List.filterMap_cons, fieldOtpVal, hv, ih hrest]
    | null => simp [fieldVOk] at hf
    | bool b => simp [fieldVOk] at hf
    | num n => simp [fieldVOk] at hf
    | str s => simp [fieldVOk] at hf
    | arr xs => simp [fieldVOk] at hf

theorem findOtpauth_ok (secl : List JVal)
    (h : ∀ s ∈ secl, sectionOk s = true) :
    findOtpauth secl = some ((otpCands secl).head?) := by
  induction secl with
  | nil => simp [findOtpauth, otpCands]
  | cons s rest ih =>
    have hs := h s (List.mem_cons_self s rest)
    have hrest : ∀ g ∈ rest, sectionOk g = true :=
      fun g hg => h g (List.mem_cons_of_mem s hg)
    cases s with
    | obj skv =>
      rw [findOtpauth]
      cases hit : asIter (dGetD skv fieldsK (.arr [])) with
      | none =>
        rw [sectionOk, hit] at hs
        cases hs
      | some fl =>
        have hfok : ∀ f ∈ fl, fieldVOk f = true := by
          rw [sectionOk, hit] at hs
          simpa [List.all_eq_true] using hs
        simp only [findOtpFields_ok fl hfok]
        have hsec : sectionOtpVals (.obj skv) = fl.filterMap fieldOtpVal := by
          rw [sectionOtpVals, hit]
        cases hfm : (fl.filterMap fieldOtpVal) with
        | nil =>
          rw [ih hrest]
          simp [otpCands, hsec, hfm]
        | cons v vs =>
          simp [otpCands, hsec, hfm]
    | null => simp [sectionOk] at hs
    | bool b => simp [sectionOk] at hs
    | num n => simp [sectionOk] at hs
    | str t => simp [sectionOk] at hs
    | arr xs => simp [sectionOk] at hs

theorem foldFields_ok (keys : List (List Char × List Char)) (fl : List JVal)
    (e : Entry) (K : JVal)
    (h : ∀ f ∈ fl, ∃ fkv K2, f = .obj fkv ∧
      fieldEntryKey keys fkv = some K2 ∧ keyCanon K2 ≠ keyCanon K) :
    ∃ e2, foldFields keys fl e = some e2 ∧ eLookup e2 K = eLookup e K := by
  induction fl generalizing e with
  | nil => exact ⟨e, rfl, rfl⟩
  | cons f rest ih =>
    obtain ⟨fkv, K2, hform, hkey, hne⟩ := h f (List.mem_cons_self f rest)
    subst hform
    have hrest : ∀ g ∈ rest, ∃ fkv K2, g = .obj fkv ∧
        fieldEntryKey keys fkv = some K2 ∧ keyCanon K2 ≠ keyCanon K :=
      fun g hg => h g (List.mem_cons_of_mem _ hg)
    have hha : hashableKey K2 = true := by
      rw [fieldEntryKey] at hkey
      exact keysGet_some_hashable _ _ _ hkey
    obtain ⟨e2, hfold, hpres⟩ :=
      ih (eStore e K2 (dGetD fkv valueK (.str []))) hrest
    refine ⟨e2, ?_, ?_⟩
    · rw [foldFields, hkey]
      show (match eInsert e K2 (dGetD fkv valueK (.str [])) with
            | none => none
            | some e2 => foldFields keys rest e2) = some e2
      rw [eInsert_hashable _ _ _ hha]
      exact hfold
    · rw [hpres]
      exact eLookup_store_ne e K2 K _ (Ne.symm hne)

theorem itemsFold_preserve (keys : List (List Char × List Char))
    (items : List (List Char × JVal)) (e : Entry) (K : JVal)
    (h : ∀ p ∈ items, ∀ K2, keysGet keys (.str p.1) = some K2 →
      keyCanon K2 ≠ keyCanon K) :
    ∃ e2, items.foldlM
        (fun e p =>
          if p.1 ∈ ignoreSet then some e
          else
            match keysGet keys (.str p.1) with
            | none => none
            | some k2 => eInsert e k2 p.2) e = some e2 ∧
      eLookup e2 K = eLookup e K := by
  induction items generalizing e with
  | nil => exact ⟨e, rfl, rfl⟩
  | cons p rest ih =>
    have hk := h p (List.mem_cons_self p rest)
    have hrest : ∀ q ∈ rest, ∀ K2, keysGet keys (.str q.1) = some K2 →
        keyCanon K2 ≠ keyCanon K :=
      fun q hq => h q (List.mem_cons_of_mem p hq)
    rw [List.foldlM_cons]
    by_cases hig : p.1 ∈ ignoreSet
    · simp only [hig, if_true, Option.some_bind]
      exact ih e hrest
    · simp only [hig, if_false]
      rw [keysGet_str]
      have hne := hk _ (keysGet_str keys p.1)
      have hha : hashableKey (.str ((sLookup keys p.1).getD p.1)) = true := rfl
      have hmatch : (match some (.str ((sLookup keys p.1).getD p.1)) with
          | none => none
          | some k2 => eInsert e k2 p.2) =
          some (eStore e (.str ((sLookup keys p.1).getD p.1)) p.2) :=
        eInsert_hashable e _ p.2 hha
      rw [hmatch]
      obtain ⟨e2, hf, hp⟩ :=
        ih (eStore e (.str ((sLookup keys p.1).getD p.1)) p.2) hrest
      exact ⟨e2, hf, by
        rw [hp]
        exact eLookup_store_ne _ _ _ _ (Ne.symm hne)⟩

theorem dInsert_pair_mem (a : List (List Char × JVal)) (k : List Char)
    (v : JVal) (x : List Char) (w : JVal) (hx : (x, w) ∈ dInsert a k v) :
    (∃ w2, (x, w2) ∈ a) ∨ x = k := by
  rw [dInsert] at hx
  by_cases hp : (dLookup a k).isSome
  · simp only [hp, if_true] at hx
    obtain ⟨q, hq, hqe⟩ := List.mem_map.mp hx
    by_cases hqk : q.1 = k
    · simp only [hqk, if_true] at hqe
      right
      exact ((Prod.mk.injEq _ _ _ _).mp hqe).1.symm
    · simp only [hqk, if_false] at hqe
      left
      exact ⟨w, hqe ▸ hq⟩
  · simp only [hp, if_false, Bool.false_eq_true] at hx
    rcases List.mem_append.mp hx with h1 | h2
    · exact Or.inl ⟨w, h1⟩
    · right
      simp at h2
      exact h2.1

theorem dUpdate_pair_mem (a b : List (List Char × JVal)) (x : List Char)
    (w : JVal) (hx : (x, w) ∈ dUpdate a b) :
    (∃ w2, (x, w2) ∈ a) ∨ (∃ w2, (x, w2) ∈ b) := by
  induction b generalizing a with
  | nil => exact Or.inl ⟨w, hx⟩
  | cons p rest ih =>
    rw [dUpdate, List.foldl_cons] at hx
    have step := ih (dInsert a p.1 p.2) (by rw [dUpdate]; exact hx)
    rcases step with ⟨w2, h1⟩ | ⟨w2, h2⟩
    · rcases dInsert_pair_mem a p.1 p.2 x w2 h1 with h3 | h4
      · exact Or.inl h3
      · right
        refine ⟨p.2, ?_⟩
        rw [h4]
        exact List.mem_cons_self (p.1, p.2) rest
    · exact Or.inr ⟨w2, List.mem_cons_of_mem p h2⟩

theorem dRemove_pair_mem (a : List (List Char × JVal)) (k : List Char)
    (x : List Char) (w : JVal) (hx : (x, w) ∈ dRemove a k) : (x, w) ∈ a := by
  induction a with
  | nil => simpa [dRemove] using hx
  | cons p rest ih =>
    rw [dRemove] at hx
    by_cases hp : p.1 = k
    · simp only [hp, if_true] at hx
      exact List.mem_cons_of_mem p (ih hx)
    · simp only [hp, if_false] at hx
      rcases List.mem_cons.mp hx with h1 | h2
      · rw [h1]
        exact List.mem_cons_self p rest
      · exact List.mem_cons_of_mem p (ih h2)

/-- C7 (amended): in a credential record, the value stored under
`otpauth` by the sections scan is the first field value starting with
the scheme prefix encountered when traversing `secureContents.sections`
in order and, within each section, fields in order (stated via
`otpCands`, the spec-side traversal); when no field value starts with
the prefix, the scan adds no `otpauth` key. This describes the final
Entry only provided no other processed key resolves to `otpauth` through
the external key map — the later top-level loop re-inserts every
non-ignored key and `otpauth` is not in the ignore set, so a top-level
`otpauth` key overwrites the scanned value
(`c7_top_level_otpauth_overwrites`) — and provided every field key
resolves without the TypeError `keys.get` raises on unhashable keys. -/
theorem c7_otpauth_first_match
    (cfg : PifCfg) (fol : Folders) (data : List Entry)
    (kvs sc0 : List (List Char × JVal)) (secl fl : List JVal)
    (htr : dLookup kvs trashedK = none)
    (hty : dLookup kvs typeNameK = some (.str webformTypeS))
    (hloc : dLookup kvs locationK = none)
    (hsc : dLookup kvs secureContentsK = some (.obj sc0))
    (hfl : asIter (dGetD sc0 fieldsK (.arr [])) = some fl)
    (hflobj : ∀ f ∈ fl, ∃ fkv K2, f = .obj fkv ∧
        fieldEntryKey cfg.keys fkv = some K2 ∧ K2 ≠ .str otpauthK)
    (hsecs : dLookup sc0 sectionsK = some (.arr secl))
    (hsecok : ∀ s ∈ secl, sectionOk s = true)
    (htop : ∀ p ∈ kvs, keysGet cfg.keys (.str p.1) ≠ some (.str otpauthK))
    (hsck : ∀ p ∈ sc0, keysGet cfg.keys (.str p.1) ≠ some (.str otpauthK)) :
    ∃ e, processItem cfg (fol, data) (.obj kvs) = some (fol, data ++ [e]) ∧
      (∀ v1 v2 vs, otpCands secl = v1 :: v2 :: vs →
          eLookup e (.str otpauthK) = some (.str v1)) ∧
      (otpCands secl = [] → eLookup e (.str otpauthK) = none) := by
  obtain ⟨bp, strip, pfx, keys, cd⟩ := cfg
  simp only at hflobj htop hsck
  have hflobj2 : ∀ f ∈ fl, ∃ fkv K2, f = .obj fkv ∧
      fieldEntryKey keys fkv = some K2 ∧
      keyCanon K2 ≠ keyCanon (.str otpauthK) := by
    intro f hf
    obtain ⟨fkv, K2, hform, hkey, hne⟩ := hflobj f hf
    refine ⟨fkv, K2, hform, hkey, ?_⟩
    intro hcanon
    have hcanon2 : keyCanon K2 = .str otpauthK := hcanon
    exact hne ((keyCanon_eq_str_iff _ _).mp hcanon2)
  obtain ⟨entry0, hfold, hpres0⟩ :=
    foldFields_ok keys fl [] (.str otpauthK) hflobj2
  have hfind := findOtpauth_ok secl hsecok
  have h1 : pyTruthy (dGetD kvs trashedK (.bool false)) = false := by
    rw [dGetD, htr]
    rfl
  have h2 : jEqStr (dGetD kvs typeNameK (.str [])) folderTypeS = false := by
    rw [dGetD, hty]
    rfl
  have h3 : jEqStr (dGetD kvs typeNameK (.str [])) webformTypeS = true := by
    rw [dGetD, hty]
    rfl
  have h4 : dGetD kvs locationK .null = .null := by
    rw [dGetD, hloc]
    rfl
  have h5 : dGetD kvs secureContentsK (.obj []) = .obj sc0 := by
    rw [dGetD, hsc]
    rfl
  have h6 : dGetD (dRemove sc0 fieldsK) sectionsK (.arr []) = .arr secl := by
    rw [dGetD, dLookup_remove_ne _ _ _ (by decide), hsecs]
    rfl
  have h4b : pyTruthy .null = false := rfl
  rw [processItem]
  simp only [h1, Bool.false_eq_true, if_false, h2, h3, if_true, h4, h4b,
    h5, hfl, hfold, h6, ite_self]
  have hpre : ∀ p ∈ dUpdate (dRemove kvs secureContentsK)
      (dRemove (dRemove sc0 fieldsK) sectionsK), ∀ K2 : JVal,
      keysGet keys (.str p.1) = some K2 →
      keyCanon K2 ≠ keyCanon (.str otpauthK) := by
    intro p hp K2 hK2 hcanon
    obtain ⟨x, w⟩ := p
    have hK3 : K2 = .str otpauthK := by
      rw [show keyCanon (.str otpauthK) = .str otpauthK from rfl] at hcanon
      exact (keyCanon_eq_str_iff _ _).mp hcanon
    subst hK3
    rcases dUpdate_pair_mem _ _ x w hp with ⟨w2, h1m⟩ | ⟨w2, h2m⟩
    · exact htop (x, w2) (dRemove_pair_mem _ _ _ _ h1m) hK2
    · exact hsck (x, w2)
        (dRemove_pair_mem _ _ _ _ (dRemove_pair_mem _ _ _ _ h2m)) hK2
  cases secl with
  | nil =>
    have htr2 : pyTruthy (.arr []) = false := rfl
    simp only [htr2, Bool.false_eq_true, if_false]
    obtain ⟨e2, hfm, hp⟩ := itemsFold_preserve keys _ entry0 _ hpre
    rw [hfm]
    refine ⟨e2, rfl, ?_, ?_⟩
    · intro v1 v2 vs hcontra
      simp [otpCands] at hcontra
    · intro _
      rw [hp, hpres0]
      rfl
  | cons s0 srest =>
    have htr2 : pyTruthy (.arr (s0 :: srest)) = true := rfl
    simp only [htr2, if_true, asIter]
    cases hc : otpCands (s0 :: srest) with
    | nil =>
      rw [hc] at hfind
      simp only [List.head?_nil] at hfind
      simp only [hfind]
      obtain ⟨e2, hfm, hp⟩ := itemsFold_preserve keys _ entry0 _ hpre
      rw [hfm]
      refine ⟨e2, rfl, ?_, ?_⟩
      · intro v1 v2 vs hcontra
        cases hcontra
      · intro _
        rw [hp, hpres0]
        rfl
    | cons v1 rest2 =>
      rw [hc] at hfind
      simp only [List.head?_cons] at hfind
      simp only [hfind]
      have hins : eInsert entry0 (.str otpauthK) (.str v1) =
          some (eStore entry0 (.str otpauthK) (.str v1)) :=
        eInsert_hashable _ _ _ rfl
      simp only [hins]
      obtain ⟨e2, hfm, hp⟩ := itemsFold_preserve keys _
        (eStore entry0 (.str otpauthK) (.str v1)) _ hpre
      rw [hfm]
      refine ⟨e2, rfl, ?_, ?_⟩
      · intro w1 w2 ws hw
        injection hw with hw1 hw2
        subst hw1
        rw [hp]
        exact eLookup_store_self entry0 (.str otpauthK) (.str v1)
      · intro hnil
        cases hnil

/-- C7 counterexample: the sections scan selects the first
one-time-password candidate, but a top-level `otpauth` key (not in the
ignore set) is re-inserted by the later top-level loop and overwrites
it: the emitted entry holds the top-level value, not the first scanned
candidate, refuting the claim as stated. -/
theorem c7_top_level_otpauth_overwrites :
    processItem
        { browserpass := false, strip := true, prefixes := defaultPrefixes,
          keys := [], cleanDom := id } ([], [])
        (.obj [(typeNameK, .str webformTypeS),
               (otpauthK, .str ("XYZ".toList)),
               (secureContentsK, .obj [(sectionsK, .arr
                 [.obj [(fieldsK, .arr
                    [.obj [(vK, .str ("otpauth://one".toList))]])],
                  .obj [(fieldsK, .arr
                    [.obj [(vK, .str ("otpauth://two".toList))]])]])])]) =
      some ([], [[(.str otpauthK, .str ("XYZ".toList))]]) ∧
    otpCands
        [.obj [(fieldsK, .arr [.obj [(vK, .str ("otpauth://one".toList))]])],
         .obj [(fieldsK, .arr [.obj [(vK, .str ("otpauth://two".toList))]])]]
      = ["otpauth://one".toList, "otpauth://two".toList] ∧
    eLookup [(.str otpauthK, .str ("XYZ".toList))] (.str otpauthK) ≠
      some (.str ("otpauth://one".toList)) := by
  refine ⟨rfl, rfl, by decide⟩

/-- Witness for C7: a record with two sections, each holding one
one-time-password field and no other key resolving to `otpauth`; the
emitted entry carries the first candidate. -/
theorem c7_otpauth_first_match_witness :
    ∃ e, processItem
        { browserpass := false, strip := true, prefixes := defaultPrefixes,
          keys := [], cleanDom := id } ([], [])
        (.obj [(typeNameK, .str webformTypeS),
               (secureContentsK, .obj [(sectionsK, .arr
                 [.obj [(fieldsK, .arr
                    [.obj [(vK, .str ("otpauth://one".toList))]])],
                  .obj [(fieldsK, .arr
                    [.obj [(vK, .str ("otpauth://two".toList))]])]])])]) =
      some ([], [] ++ [e]) ∧
    eLookup e (.str otpauthK) = some (.str ("otpauth://one".toList)) := by
  obtain ⟨e, hrun, hfirst, hnone⟩ :=
    c7_otpauth_first_match
      { browserpass := false, strip := true, prefixes := defaultPrefixes,
        keys := [], cleanDom := id } [] []
      [(typeNameK, .str webformTypeS),
       (secureContentsK, .obj [(sectionsK, .arr
         [.obj [(fieldsK, .arr [.obj [(vK, .str ("otpauth://one".toList))]])],
          .obj [(fieldsK, .arr
            [.obj [(vK, .str ("otpauth://two".toList))]])]])])]
      [(sectionsK, .arr
         [.obj [(fieldsK, .arr [.obj [(vK, .str ("otpauth://one".toList))]])],
          .obj [(fieldsK, .arr
            [.obj [(vK, .str ("otpauth://two".toList))]])]])]
      [.obj [(fieldsK, .arr [.obj [(vK, .str ("otpauth://one".toList))]])],
       .obj [(fieldsK, .arr [.obj [(vK, .str ("otpauth://two".toList))]])]]
      [] rfl rfl rfl rfl rfl (by simp) rfl (by decide) (by decide) (by decide)
  exact ⟨e, hrun, hfirst ("otpauth://one".toList) ("otpauth://two".toList)
    [] rfl⟩

/-! ## The regex pass: lemmas on `pifSubAux` -/

theorem findClose_succ3_hit (cs line : List Char) (r : Nat)
    (h : (tripleStarAt line (r + 3) && spaceAt cs (r + 6)) = true) :
    findClose cs line (r + 3) = some (r + 3) := by
  rw [findClose, if_pos h]

theorem findClose_succ3_miss (cs line : List Char) (r : Nat)
    (h : (tripleStarAt line (r + 3) && spaceAt cs (r + 6)) = false) :
    findClose cs line (r + 3) = findClose cs line (r + 2) := by
  rw [findClose, if_neg (by simp [h])]

theorem findClose_down (cs line : List Char) (s r : Nat) (hr : r ≤ s)
    (hfail : ∀ j, r < j → j ≤ s →
      (tripleStarAt line j && spaceAt cs (j + 3)) = false) :
    findClose cs line s = findClose cs line r := by
  induction s, hr using Nat.le_induction with
  | base => rfl
  | succ s hs ih =>
    have hstep : findClose cs line (s + 1) = findClose cs line s := by
      rcases Nat.lt_or_ge s 2 with h2 | h2
      · interval_cases s <;> rfl
      · obtain ⟨t, rfl⟩ : ∃ t, s = t + 2 := ⟨s - 2, by omega⟩
        exact findClose_succ3_miss cs line t
          (hfail (t + 3) (by omega) (by omega))
    rw [hstep]
    exact ih (fun j hj1 hj2 => hfail j hj1 (by omega))

theorem findClose_exact (cs line : List Char) (r s : Nat) (h3 : 3 ≤ r)
    (hrs : r ≤ s)
    (hit : (tripleStarAt line r && spaceAt cs (r + 3)) = true)
    (hfail : ∀ j, r < j → j ≤ s →
      (tripleStarAt line j && spaceAt cs (j + 3)) = false) :
    findClose cs line s = some r := by
  rw [findClose_down cs line s r hrs hfail]
  obtain ⟨t, rfl⟩ : ∃ t, r = t + 3 := ⟨r - 3, by omega⟩
  exact findClose_succ3_hit cs line t hit

theorem takeWhile_all_append (p : Char → Bool) (l1 l2 : List Char)
    (h : ∀ c ∈ l1, p c = true) :
    (l1 ++ l2).takeWhile p = l1 ++ l2.takeWhile p := by
  induction l1 with
  | nil => rfl
  | cons c r ih =>
    simp [List.takeWhile_cons, h c (by simp), ih (fun d hd => h d (by simp [hd]))]

theorem takeWhile_head_false (p : Char → Bool) (c : Char) (l : List Char)
    (h : p c = false) : (c :: l).takeWhile p = [] := by
  simp [List.takeWhile_cons, h]

theorem dropWhile_cons_false (p : Char → Bool) (l : List Char) (d : Char)
    (db : List Char) (h : l.dropWhile p = d :: db) : p d = false := by
  induction l with
  | nil => simp [List.dropWhile] at h
  | cons c r ih =>
    rw [List.dropWhile_cons] at h
    by_cases hc : p c = true
    · simp only [hc, if_true] at h
      exact ih h
    · simp only [hc, Bool.false_eq_true, if_false] at h
      have := List.head_eq_of_cons_eq h
      rw [← this]
      exact Bool.eq_false_iff.mpr hc

theorem two_star_space_no_triple (wsa : List Char)
    (hws : ∀ c ∈ wsa, isPySpace c = true) (d : Nat)
    (h : ((('*' :: '*' :: wsa).drop d).take 3) = ['*', '*', '*']) : False := by
  match d with
  | 0 =>
    cases wsa with
    | nil => simp [List.take] at h
    | cons c r =>
      simp only [List.drop, List.take] at h
      have hc : c = '*' := by
        have := List.head_eq_of_cons_eq (List.tail_eq_of_cons_eq
          (List.tail_eq_of_cons_eq h))
        exact this
      have := hws c (by simp)
      rw [hc] at this
      simp [isPySpace] at this
  | 1 =>
    cases wsa with
    | nil => simp [List.take] at h
    | cons c r =>
      simp only [List.drop, List.take] at h
      have hc : c = '*' := by
        have := List.head_eq_of_cons_eq (List.tail_eq_of_cons_eq h)
        exact this
      have := hws c (by simp)
      rw [hc] at this
      simp [isPySpace] at this
  | d + 2 =>
    have hsub : '*' ∈ wsa := by
      have h1 : '*' ∈ ((wsa.drop d).take 3) := by
        simp only [List.drop] at h
        rw [h]
        simp
      exact List.mem_of_mem_drop (List.mem_of_mem_take h1)
    have := hws '*' hsub
    simp [isPySpace] at this

theorem markerMatchLen_render (mid ws rest : List Char)
    (hmid : ∀ c ∈ mid, (c != '\n') = true)
    (hws : ∀ c ∈ ws, isPySpace c = true)
    (hnl : '\n' ∈ ws)
    (hrest : rest = [] ∨ ∃ c cs2, rest = c :: cs2 ∧ isPySpace c = false) :
    markerMatchLen (renderTok (.marker mid ws) ++ rest) =
      some (6 + mid.length + ws.length) := by
  obtain ⟨wsa, wsb, hwsplit, hwsa_nl, hwsa_sp⟩ :
      ∃ wsa wsb, ws = wsa ++ '\n' :: wsb ∧ (∀ c ∈ wsa, (c != '\n') = true) ∧
        (∀ c ∈ wsa, isPySpace c = true) := by
    have hd : ws.dropWhile (fun c => c != '\n') ≠ [] := by
      intro he
      rw [List.dropWhile_eq_nil_iff] at he
      have := he '\n' hnl
      simp at this
    cases hdw : ws.dropWhile (fun c => c != '\n') with
    | nil => exact absurd hdw hd
    | cons d db =>
      have hdfalse := dropWhile_cons_false _ _ _ _ hdw
      have hdnl : d = '\n' := by simpa using hdfalse
      refine ⟨ws.takeWhile (fun c => c != '\n'), db, ?_, ?_, ?_⟩
      · conv_lhs => rw [← List.takeWhile_append_dropWhile
          (p := fun c => c != '\n') (l := ws)]
        rw [hdw, hdnl]
      · intro c hc
        exact List.mem_takeWhile_imp (p := fun c => c != '\n') (l := ws) hc
      · intro c hc
        exact hws c (List.takeWhile_subset _ hc)
  have hws0 : ws ≠ [] := by
    intro he
    rw [he] at hnl
    cases hnl
  obtain ⟨w0, wtl, hw0⟩ : ∃ w0 wtl, ws = w0 :: wtl := by
    cases ws with
    | nil => exact absurd rfl hws0
    | cons a b => exact ⟨a, b, rfl⟩
  have hw0sp : isPySpace w0 = true := hws w0 (by rw [hw0]; simp)
  -- the current line of the input
  have hshape : renderTok (.marker mid ws) ++ rest =
      ('*' :: '*' :: '*' :: (mid ++ ('*' :: '*' :: '*' :: wsa))) ++
        ('\n' :: (wsb ++ rest)) := by
    rw [renderTok, hwsplit]
    simp [List.append_assoc]
  have hline : (renderTok (.marker mid ws) ++ rest).takeWhile
      (fun c => c != '\n') =
      '*' :: '*' :: '*' :: (mid ++ ('*' :: '*' :: '*' :: wsa)) := by
    rw [hshape, takeWhile_all_append, takeWhile_head_false]
    · simp
    · simp
    · intro c hc
      have hc2 : c = '*' ∨ c ∈ mid ∨ c ∈ wsa := by
        simp only [List.mem_cons, List.mem_append] at hc
        tauto
      rcases hc2 with h | h | h
      · subst h
        simp
      · exact hmid c h
      · exact hwsa_nl c h
  have hlineLen : (('*' :: '*' :: '*' :: (mid ++ ('*' :: '*' :: '*' :: wsa))) :
      List Char).length = 6 + mid.length + wsa.length := by
    simp only [List.length_append, List.length_cons, List.length_nil]
    omega
  -- the closing position
  have hA : (['*', '*', '*'] ++ mid).length = 3 + mid.length := by
    simp only [List.length_append, List.length_cons, List.length_nil]
  have hlineAssoc : ('*' :: '*' :: '*' :: (mid ++ ('*' :: '*' :: '*' :: wsa)) :
      List Char) = (['*', '*', '*'] ++ mid) ++ ('*' :: '*' :: '*' :: wsa) := by
    simp
  have hhit : tripleStarAt
      ('*' :: '*' :: '*' :: (mid ++ ('*' :: '*' :: '*' :: wsa)))
      (3 + mid.length) = true := by
    rw [tripleStarAt, hlineAssoc, List.drop_left' hA]
    rfl
  have hshape2 : renderTok (.marker mid ws) ++ rest =
      (['*', '*', '*'] ++ mid ++ ['*', '*', '*']) ++ (ws ++ rest) := by
    rw [renderTok]
    simp
  have hC : (['*', '*', '*'] ++ mid ++ ['*', '*', '*']).length =
      6 + mid.length := by
    simp only [List.length_append, List.length_cons, List.length_nil]
    omega
  have hspace : spaceAt (renderTok (.marker mid ws) ++ rest)
      (3 + mid.length + 3) = true := by
    rw [spaceAt, hshape2]
    have h63 : 3 + mid.length + 3 = (['*', '*', '*'] ++ mid ++
        ['*', '*', '*']).length + 0 := by
      rw [hC]
      omega
    rw [h63, List.get?_append_right (by omega)]
    have hsim : (['*', '*', '*'] ++ mid ++ ['*', '*', '*']).length + 0 -
        (['*', '*', '*'] ++ mid ++ ['*', '*', '*']).length = 0 := by
      omega
    rw [hsim, hw0]
    simp [hw0sp]
  have hfail : ∀ j, 3 + mid.length < j →
      j ≤ 6 + mid.length + wsa.length →
      (tripleStarAt ('*' :: '*' :: '*' :: (mid ++ ('*' :: '*' :: '*' :: wsa))) j
        && spaceAt (renderTok (.marker mid ws) ++ rest) (j + 3)) = false := by
    intro j hj1 hj2
    have htsf : tripleStarAt
        ('*' :: '*' :: '*' :: (mid ++ ('*' :: '*' :: '*' :: wsa))) j = false := by
      cases htr : tripleStarAt
          ('*' :: '*' :: '*' :: (mid ++ ('*' :: '*' :: '*' :: wsa))) j
      · rfl
      · exfalso
        rw [tripleStarAt] at htr
        have heq := eq_of_beq htr
        have hA4 : (['*', '*', '*'] ++ mid ++ ['*']).length = 4 + mid.length := by
          simp
          omega
        have hlineAssoc2 : ('*' :: '*' :: '*' ::
            (mid ++ ('*' :: '*' :: '*' :: wsa)) : List Char) =
            (['*', '*', '*'] ++ mid ++ ['*']) ++ ('*' :: '*' :: wsa) := by
          simp
        have hj : j = (['*', '*', '*'] ++ mid ++ ['*']).length +
            (j - (4 + mid.length)) := by
          rw [hA4]
          omega
        rw [hlineAssoc2, hj, List.drop_append] at heq
        exact two_star_space_no_triple wsa hwsa_sp _ heq
    rw [htsf]
    rfl
  have hfc : findClose (renderTok (.marker mid ws) ++ rest)
      ('*' :: '*' :: '*' :: (mid ++ ('*' :: '*' :: '*' :: wsa)))
      ('*' :: '*' :: '*' :: (mid ++ ('*' :: '*' :: '*' :: wsa)) :
        List Char).length = some (3 + mid.length) := by
    rw [hlineLen]
    exact findClose_exact _ _ (3 + mid.length) (6 + mid.length + wsa.length)
      (by omega) (by omega)
      (by rw [hhit, hspace]; rfl)
      hfail
  have htake : (renderTok (.marker mid ws) ++ rest).take 3 =
      ['*', '*', '*'] := by
    rw [renderTok]
    rfl
  have hwsrun : ((renderTok (.marker mid ws) ++ rest).drop
      (3 + mid.length + 3)).takeWhile isPySpace = ws := by
    rw [hshape2]
    have h63 : 3 + mid.length + 3 = (['*', '*', '*'] ++ mid ++
        ['*', '*', '*']).length := by
      rw [hC]
      omega
    rw [h63, List.drop_left]
    rw [takeWhile_all_append isPySpace ws rest hws]
    rcases hrest with hre | ⟨c, cs2, hre, hcns⟩
    · rw [hre]
      simp
    · rw [hre, takeWhile_head_false isPySpace c cs2 hcns]
      simp
  rw [markerMatchLen]
  rw [htake]
  simp only [show ((['*', '*', '*'] : List Char) == ['*', '*', '*']) = true
    from rfl, if_true]
  rw [hline]
  simp only [hfc, hwsrun]
  simp only [Option.some.injEq]
  omega
/-! ## Consuming the rendered tokens through the regex pass -/

theorem pifSubAux_nil (b : Bool) : pifSubAux b [] = [] := by
  rw [pifSubAux]

theorem pifSubAux_false_cons (c : Char) (rest : List Char) :
    pifSubAux false (c :: rest) = c :: pifSubAux (c == '\n') rest := by
  rw [pifSubAux]
  simp

theorem pifSubAux_true_none (c : Char) (rest : List Char)
    (h : markerMatchLen (c :: rest) = none) :
    pifSubAux true (c :: rest) = c :: pifSubAux (c == '\n') rest := by
  rw [pifSubAux]
  simp only [if_true, h]

theorem pifSubAux_true_some (c : Char) (rest : List Char) (n : Nat)
    (h : markerMatchLen (c :: rest) = some n) :
    pifSubAux true (c :: rest) =
      pifSubAux (((c :: rest).drop (n - 1)).head? == some '\n')
        (rest.drop (n - 1)) := by
  rw [pifSubAux]
  simp only [if_true, h]

theorem markerMatchLen_not_star (c : Char) (rest : List Char)
    (h : (c == '*') = false) : markerMatchLen (c :: rest) = none := by
  rw [markerMatchLen, if_neg]
  intro hc
  rw [List.take_succ_cons, List.cons_beq_cons, h] at hc
  simp at hc

theorem pifSubAux_false_append (l rest : List Char)
    (h : ∀ c ∈ l, (c == '\n') = false) :
    pifSubAux false (l ++ rest) = l ++ pifSubAux false rest := by
  induction l with
  | nil => rfl
  | cons c l2 ih =>
    rw [List.cons_append, pifSubAux_false_cons, h c (by simp),
      ih (fun d hd => h d (by simp [hd]))]
    rfl

theorem pifSubAux_newline (b : Bool) (rest : List Char) :
    pifSubAux b ('\n' :: rest) = '\n' :: pifSubAux true rest := by
  cases b with
  | false => rw [pifSubAux_false_cons]; rfl
  | true =>
    rw [pifSubAux_true_none _ _ (markerMatchLen_not_star _ _ (by decide))]
    rfl

theorem pifSubAux_line (l rest : List Char) (hstar : l.head? ≠ some '*')
    (hnl : ∀ c ∈ l, (c == '\n') = false) :
    pifSubAux true (l ++ '\n' :: rest) = l ++ '\n' :: pifSubAux true rest := by
  cases l with
  | nil => rw [List.nil_append, pifSubAux_newline]; rfl
  | cons c l2 =>
    have hcs : (c == '*') = false := by
      cases he : c == '*'
      · rfl
      · exact absurd (by rw [eq_of_beq he]; rfl) hstar
    rw [List.cons_append, pifSubAux_true_none _ _ (markerMatchLen_not_star _ _ hcs),
      hnl c (by simp),
      pifSubAux_false_append l2 ('\n' :: rest) (fun d hd => hnl d (by simp [hd])),
      pifSubAux_newline]
    rfl

theorem pifSubAux_marker (mid ws rest : List Char)
    (hmid : ∀ c ∈ mid, (c != '\n') = true)
    (hws : ∀ c ∈ ws, isPySpace c = true)
    (hlast : ws.getLast? = some '\n')
    (hrest : rest = [] ∨ ∃ c cs2, rest = c :: cs2 ∧ isPySpace c = false) :
    pifSubAux true (renderTok (.marker mid ws) ++ rest) =
      pifSubAux true rest := by
  obtain ⟨wsp, hwsp⟩ : ∃ z, ws = z ++ ['\n'] := by
    rw [List.getLast?_eq_some_iff] at hlast
    exact hlast
  have hnl : '\n' ∈ ws := by rw [hwsp]; simp
  have hmml := markerMatchLen_render mid ws rest hmid hws hnl hrest
  have hlen : (renderTok (.marker mid ws)).length = 6 + mid.length + ws.length := by
    rw [renderTok]
    simp only [List.length_cons, List.length_append]
    omega
  obtain ⟨c0, tl0, htl0⟩ : ∃ c0 tl0, renderTok (.marker mid ws) ++ rest =
      c0 :: tl0 := by
    rw [renderTok]
    exact ⟨_, _, rfl⟩
  rw [htl0] at hmml
  rw [htl0, pifSubAux_true_some c0 tl0 _ hmml, ← htl0]
  have hpre : renderTok (.marker mid ws) =
      ('*' :: '*' :: '*' :: (mid ++ ('*' :: '*' :: '*' :: wsp))) ++ ['\n'] := by
    rw [renderTok, hwsp]
    simp
  have hprelen : (('*' :: '*' :: '*' :: (mid ++ ('*' :: '*' :: '*' :: wsp))) :
      List Char).length = 6 + mid.length + ws.length - 1 := by
    simp only [List.length_cons, List.length_append]
    rw [hwsp]
    simp only [List.length_append, List.length_cons, List.length_nil]
    omega
  have hdrop1 : (renderTok (.marker mid ws) ++ rest).drop
      (6 + mid.length + ws.length - 1) = '\n' :: rest := by
    rw [hpre, List.append_assoc, List.singleton_append,
      List.drop_left' hprelen]
  have hdropn : (renderTok (.marker mid ws) ++ rest).drop
      (6 + mid.length + ws.length) = rest := by
    rw [← hlen, List.drop_left]
  have hdroptl : tl0.drop (6 + mid.length + ws.length - 1) = rest := by
    have h2 : (c0 :: tl0).drop (6 + mid.length + ws.length) = rest := by
      rw [← htl0]
      exact hdropn
    have h3 : 6 + mid.length + ws.length = (6 + mid.length + ws.length - 1) + 1 := by
      have : 1 ≤ ws.length := by
        rw [hwsp]
        simp
      omega
    rw [h3, List.drop_succ_cons] at h2
    exact h2
  rw [hdrop1, hdroptl]
  rfl

theorem renderToks_head (ts : List PifTok) (hwf : ∀ t ∈ ts, tokWF t = true) :
    renderToks ts = [] ∨
      ∃ c cs2, renderToks ts = c :: cs2 ∧ isPySpace c = false := by
  cases ts with
  | nil => exact Or.inl rfl
  | cons t ts2 =>
    right
    have hz : renderToks (t :: ts2) = renderTok t ++ renderToks ts2 := by
      simp [renderToks]
    cases t with
    | marker mid ws =>
      refine ⟨'*', ('*' :: '*' :: (mid ++ ('*' :: '*' :: '*' :: ws))) ++
        renderToks ts2, ?_, by decide⟩
      rw [hz, renderTok]
      rfl
    | data l =>
      have hw := hwf (.data l) (by simp)
      rw [tokWF] at hw
      simp only [Bool.and_eq_true] at hw
      obtain ⟨⟨⟨hne, hhd⟩, hlast⟩, hnl⟩ := hw
      cases l with
      | nil => simp at hne
      | cons c l2 =>
        have hc : c = '{' := by
          have := eq_of_beq hhd
          simpa using this
        subst hc
        refine ⟨'{', l2 ++ '\n' :: renderToks ts2, ?_, by decide⟩
        rw [hz, renderTok]
        simp

theorem pifClean_renderToks (ts : List PifTok)
    (hwf : ∀ t ∈ ts, tokWF t = true) :
    pifSubAux true (renderToks ts) =
      ((dataLines ts).map (fun l => l ++ ['\n'])).flatten := by
  induction ts with
  | nil =>
    rw [renderToks]
    simp [pifSubAux_nil, dataLines]
  | cons t ts2 ih =>
    have hz : renderToks (t :: ts2) = renderTok t ++ renderToks ts2 := by
      simp [renderToks]
    have hwf2 : ∀ u ∈ ts2, tokWF u = true := fun u hu => hwf u (by simp [hu])
    have hw := hwf t (by simp)
    cases t with
    | marker mid ws =>
      rw [tokWF] at hw
      simp only [Bool.and_eq_true] at hw
      obtain ⟨⟨⟨hmid, hne⟩, hsp⟩, hlast⟩ := hw
      rw [hz, pifSubAux_marker mid ws _ (by simpa [List.all_eq_true] using hmid)
        (by simpa [List.all_eq_true] using hsp)
        (eq_of_beq hlast) (renderToks_head ts2 hwf2), ih hwf2]
      rw [dataLines]
      simp [dataLines]
    | data l =>
      rw [tokWF] at hw
      simp only [Bool.and_eq_true] at hw
      obtain ⟨⟨⟨hne, hhd⟩, hlast⟩, hnl⟩ := hw
      have hhd2 : l.head? ≠ some '*' := by
        rw [eq_of_beq hhd]
        decide
      have hnl2 : ∀ c ∈ l, (c == '\n') = false := by
        intro c hc
        have := (List.all_eq_true.mp hnl) c hc
        simpa using this
      have hrt : renderTok (.data l) ++ renderToks ts2 =
          l ++ '\n' :: renderToks ts2 := by
        rw [renderTok]
        simp
      rw [hz, hrt, pifSubAux_line l _ hhd2 hnl2, ih hwf2]
      rw [dataLines]
      simp [dataLines]

/-! ## Splitting and joining the cleaned text -/

theorem splitNl_line (l r : List Char) (h : ∀ c ∈ l, c ≠ '\n') :
    splitNl (l ++ '\n' :: r) = l :: splitNl r := by
  induction l with
  | nil =>
    rw [List.nil_append, splitNl, if_pos rfl]
  | cons c l2 ih =>
    rw [List.cons_append, splitNl, if_neg (h c (by simp)),
      ih (fun d hd => h d (by simp [hd]))]

theorem splitNl_flatten (ls : List (List Char))
    (h : ∀ l ∈ ls, ∀ c ∈ l, c ≠ '\n') :
    splitNl ((ls.map (fun l => l ++ ['\n'])).flatten) = ls ++ [[]] := by
  induction ls with
  | nil => rfl
  | cons l ls2 ih =>
    have hfl : ((l :: ls2).map (fun l => l ++ ['\n'])).flatten =
        l ++ '\n' :: (ls2.map (fun l => l ++ ['\n'])).flatten := by
      simp
    rw [hfl, splitNl_line l _ (h l (by simp)),
      ih (fun u hu => h u (by simp [hu]))]
    rfl

theorem joinComma_single (l : List Char) : joinComma [l] = l := rfl

theorem joinComma_cons_cons (l l2 : List Char) (ls : List (List Char)) :
    joinComma (l :: l2 :: ls) = l ++ ',' :: joinComma (l2 :: ls) := rfl

theorem joinComma_append_empty (ls : List (List Char)) (h : ls ≠ []) :
    joinComma (ls ++ [[]]) = joinComma ls ++ [','] := by
  induction ls with
  | nil => exact absurd rfl h
  | cons l ls2 ih =>
    cases ls2 with
    | nil => rfl
    | cons l2 ls3 =>
      have h2 : joinComma ((l2 :: ls3) ++ [[]]) = joinComma (l2 :: ls3) ++ [','] :=
        ih (by simp)
      rw [List.cons_append] at h2
      simp only [List.cons_append]
      rw [joinComma_cons_cons l l2 (ls3 ++ [[]]), h2,
        joinComma_cons_cons l l2 ls3]
      simp

theorem joinComma_last (ls : List (List Char)) (h : ls ≠ [])
    (hall : ∀ l ∈ ls, ∃ z, l = z ++ ['}']) :
    ∃ z, joinComma ls = z ++ ['}'] := by
  induction ls with
  | nil => exact absurd rfl h
  | cons l ls2 ih =>
    cases ls2 with
    | nil =>
      obtain ⟨z, hz⟩ := hall l (by simp)
      exact ⟨z, by rw [joinComma_single, hz]⟩
    | cons l2 ls3 =>
      obtain ⟨z2, hz2⟩ := ih (by simp) (fun u hu => hall u (by simp [hu]))
      refine ⟨l ++ ',' :: z2, ?_⟩
      rw [joinComma_cons_cons, hz2]
      simp

theorem rstripComma_closed (z : List Char) :
    rstripComma ((z ++ ['}']) ++ [',']) = z ++ ['}'] := by
  rw [rstripComma]
  have h1 : ((z ++ ['}']) ++ [',']).reverse = ',' :: '}' :: z.reverse := by
    simp
  rw [h1, List.dropWhile_cons_of_pos (by decide),
    List.dropWhile_cons_of_neg (by decide)]
  simp
/-! ## Extension lemmas for the JSON parser -/

theorem dropWhile_append_cons (p : Char → Bool) (s t : List Char) (c : Char)
    (r : List Char) (h : s.dropWhile p = c :: r) :
    (s ++ t).dropWhile p = c :: (r ++ t) := by
  induction s with
  | nil =>
    simp only [List.dropWhile_nil] at h
    cases h
  | cons a s2 ih =>
    rw [List.dropWhile_cons] at h
    rw [List.cons_append, List.dropWhile_cons]
    by_cases ha : p a = true
    · simp only [ha, if_true] at h ⊢
      exact ih h
    · simp only [ha, Bool.false_eq_true, if_false] at h ⊢
      injection h with h1 h2
      subst h1
      subst h2
      rfl

theorem dropWhile_append_all (p : Char → Bool) (l1 l2 : List Char)
    (h : ∀ c ∈ l1, p c = true) :
    (l1 ++ l2).dropWhile p = l2.dropWhile p := by
  induction l1 with
  | nil => rfl
  | cons a l ih =>
    rw [List.cons_append, List.dropWhile_cons]
    simp only [h a (by simp), if_true]
    exact ih (fun c hc => h c (by simp [hc]))

theorem skipWs_append_cons (s t : List Char) (c : Char) (r : List Char)
    (h : skipWs s = c :: r) : skipWs (s ++ t) = c :: (r ++ t) :=
  dropWhile_append_cons _ s t c r h

theorem skipWs_all_append (s t : List Char) (h : skipWs s = []) :
    skipWs (s ++ t) = skipWs t := by
  rw [skipWs] at h
  rw [skipWs, skipWs, dropWhile_append_all]
  intro c hc
  have := List.dropWhile_eq_nil_iff.mp h c hc
  simpa using this

theorem parseVal_zero (s : List Char) : parseVal 0 s = none := rfl

theorem parseVal_nil (f : Nat) : parseVal f [] = none := by
  cases f <;> rfl

theorem parseArrElems_nil (f : Nat) (acc : List JVal) :
    parseArrElems f [] acc = none := by
  cases f with
  | zero => rfl
  | succ f2 => rw [parseArrElems, parseVal_nil]

theorem parseStrBody_quote (s : List Char) :
    parseStrBody ('"' :: s) = some ([], s) := by
  rw [parseStrBody.eq_def]
  simp

theorem parseStrBody_esc (e : Char) (s : List Char) :
    parseStrBody ('\\' :: e :: s) =
      (match escChar e with
       | none => none
       | some d => (parseStrBody s).map (fun p => (d :: p.1, p.2))) := by
  rw [parseStrBody.eq_def]
  simp

theorem parseStrBody_other (c : Char) (s : List Char) (h1 : ¬c = '"')
    (h2 : ¬c = '\\') (h3 : ¬c.toNat < 32) :
    parseStrBody (c :: s) = (parseStrBody s).map (fun p => (c :: p.1, p.2)) := by
  rw [parseStrBody.eq_def]
  simp only [if_neg h1, if_neg h2, if_neg h3]

theorem parseStrBody_ext (t : List Char) : ∀ n s sp r, s.length ≤ n →
    parseStrBody s = some (sp, r) →
    parseStrBody (s ++ t) = some (sp, r ++ t) := by
  intro n
  induction n with
  | zero =>
    intro s sp r hl h
    cases s with
    | nil => simp [parseStrBody] at h
    | cons c s2 => simp at hl
  | succ n ih =>
    intro s sp r hl h
    cases s with
    | nil => simp [parseStrBody] at h
    | cons c s2 =>
      by_cases h1 : c = '"'
      · subst h1
        rw [parseStrBody_quote] at h
        simp only [Option.some.injEq, Prod.mk.injEq] at h
        obtain ⟨rfl, rfl⟩ := h
        rw [List.cons_append, parseStrBody_quote]
      · by_cases h2 : c = '\\'
        · subst h2
          cases s2 with
          | nil =>
            rw [show parseStrBody ['\\'] = none from rfl] at h
            cases h
          | cons e s3 =>
            rw [parseStrBody_esc] at h
            cases hesc : escChar e with
            | none =>
              rw [hesc] at h
              have h4 : (none : Option (List Char × List Char)) = some (sp, r) := h
              cases h4
            | some d =>
              rw [hesc] at h
              have h4 : (parseStrBody s3).map (fun p => (d :: p.1, p.2)) =
                  some (sp, r) := h
              rw [List.cons_append, List.cons_append, parseStrBody_esc, hesc]
              show (parseStrBody (s3 ++ t)).map (fun p => (d :: p.1, p.2)) =
                some (sp, r ++ t)
              obtain ⟨⟨p1, p2⟩, hp, hinj⟩ := Option.map_eq_some'.mp h4
              simp only [Prod.mk.injEq] at hinj
              obtain ⟨rfl, rfl⟩ := hinj
              have hlen : s3.length ≤ n := by
                simp only [List.length_cons] at hl
                omega
              rw [ih s3 p1 p2 hlen hp]
              rfl
        · by_cases h3 : c.toNat < 32
          · rw [parseStrBody.eq_def] at h
            simp only [if_neg h1, if_neg h2, if_pos h3] at h
            exact Option.noConfusion h
          · rw [parseStrBody_other c s2 h1 h2 h3] at h
            obtain ⟨⟨p1, p2⟩, hp, hinj⟩ := Option.map_eq_some'.mp h
            simp only [Prod.mk.injEq] at hinj
            obtain ⟨rfl, rfl⟩ := hinj
            rw [List.cons_append, parseStrBody_other c (s2 ++ t) h1 h2 h3]
            have hlen : s2.length ≤ n := by
              simp only [List.length_cons] at hl
              omega
            rw [ih s2 p1 p2 hlen hp]
            rfl

theorem parseDigits_ext (t s : List Char) (n : Nat) (r : List Char)
    (ht : ∀ c, t.head? = some c → c.isDigit = false)
    (h : parseDigits s = some (n, r)) :
    parseDigits (s ++ t) = some (n, r ++ t) := by
  rw [parseDigits] at h
  by_cases he : (s.takeWhile Char.isDigit).isEmpty = true
  · rw [if_pos he] at h
    cases h
  · rw [if_neg he] at h
    by_cases hz : (2 ≤ (s.takeWhile Char.isDigit).length &&
        (s.takeWhile Char.isDigit).head? == some '0') = true
    · rw [if_pos hz] at h
      cases h
    · rw [if_neg hz] at h
      simp only [Option.some.injEq, Prod.mk.injEq] at h
      obtain ⟨rfl, rfl⟩ := h
      have hdig : ∀ c ∈ s.takeWhile Char.isDigit, Char.isDigit c = true :=
        fun c hc => List.mem_takeWhile_imp hc
      have htw : (s ++ t).takeWhile Char.isDigit = s.takeWhile Char.isDigit := by
        conv_lhs => rw [← List.takeWhile_append_dropWhile (p := Char.isDigit)
          (l := s), List.append_assoc]
        rw [takeWhile_all_append _ _ _ hdig]
        cases hdw : s.dropWhile Char.isDigit with
        | nil =>
          simp only [List.nil_append]
          cases t with
          | nil => simp
          | cons c t2 => rw [takeWhile_head_false _ _ _ (ht c rfl)]; simp
        | cons d r2 =>
          have hd := dropWhile_cons_false _ _ _ _ hdw
          rw [List.cons_append, takeWhile_head_false _ _ _ hd]
          simp
      have hdr : (s ++ t).dropWhile Char.isDigit =
          s.dropWhile Char.isDigit ++ t := by
        conv_lhs => rw [← List.takeWhile_append_dropWhile (p := Char.isDigit)
          (l := s), List.append_assoc]
        rw [dropWhile_append_all _ _ _ hdig]
        cases hdw : s.dropWhile Char.isDigit with
        | nil =>
          simp only [List.nil_append]
          cases t with
          | nil => simp
          | cons c t2 =>
            rw [List.dropWhile_cons_of_neg]
            simp [ht c rfl]
        | cons d r2 =>
          have hd := dropWhile_cons_false _ _ _ _ hdw
          rw [List.cons_append, List.dropWhile_cons_of_neg]
          simp [hd]
      rw [parseDigits, htw, hdr, if_neg he, if_neg hz]

theorem parseNum_not_minus (c : Char) (s : List Char) (hc : c ≠ '-') :
    parseNum (c :: s) = (parseDigits (c :: s)).map
      (fun p => ((p.1 : Int), p.2)) := by
  rw [parseNum.eq_def]
  split
  · rename_i r2 heq
    injection heq with h1 h2
    exact absurd h1 hc
  · rfl

theorem parseNum_ext (t s : List Char) (n : Int) (r : List Char)
    (ht : ∀ c, t.head? = some c → c.isDigit = false)
    (h : parseNum s = some (n, r)) :
    parseNum (s ++ t) = some (n, r ++ t) := by
  cases s with
  | nil =>
    have hn : parseNum [] = (parseDigits []).map
        (fun p => ((p.1 : Int), p.2)) := by
      rw [parseNum.eq_def]
    rw [hn] at h
    simp [parseDigits] at h
  | cons c s2 =>
    by_cases hc : c = '-'
    · subst hc
      rw [parseNum] at h
      rw [List.cons_append, parseNum]
      simp only [Option.map_eq_some'] at h
      obtain ⟨⟨p1, p2⟩, hp, hinj⟩ := h
      simp only [Prod.mk.injEq] at hinj
      obtain ⟨rfl, rfl⟩ := hinj
      rw [parseDigits_ext t s2 p1 p2 ht hp]
      rfl
    · rw [parseNum_not_minus c s2 hc] at h
      simp only [Option.map_eq_some'] at h
      obtain ⟨⟨p1, p2⟩, hp, hinj⟩ := h
      simp only [Prod.mk.injEq] at hinj
      obtain ⟨rfl, rfl⟩ := hinj
      rw [List.cons_append, parseNum_not_minus c (s2 ++ t) hc,
        ← List.cons_append, parseDigits_ext t (c :: s2) p1 p2 ht hp]
      rfl
theorem parseVal_cons_eq (f : Nat) (c : Char) (rest : List Char) :
    parseVal (f+1) (c :: rest) =
      (if c = '"' then (parseStrBody rest).map (fun p => (.str p.1, p.2))
      else if c = '[' then
        if (skipWs rest).head? = some ']' then some (.arr [], (skipWs rest).tail)
        else parseArrElems f (skipWs rest) []
      else if c = '{' then
        if (skipWs rest).head? = some '}' then some (.obj [], (skipWs rest).tail)
        else parseObjElems f (skipWs rest) []
      else if c = 'n' then
        if rest.take 3 = ['u', 'l', 'l'] then some (.null, rest.drop 3) else none
      else if c = 't' then
        if rest.take 3 = ['r', 'u', 'e'] then some (.bool true, rest.drop 3)
        else none
      else if c = 'f' then
        if rest.take 4 = ['a', 'l', 's', 'e'] then some (.bool false, rest.drop 4)
        else none
      else if c == '-' || c.isDigit then
        (parseNum (c :: rest)).map (fun p => (.num p.1, p.2))
      else none) := rfl

theorem parseArrElems_succ (f : Nat) (s : List Char) (acc : List JVal) :
    parseArrElems (f+1) s acc =
      (match parseVal f s with
       | none => none
       | some vr =>
         if (skipWs vr.2).head? = some ',' then
           parseArrElems f (skipWs ((skipWs vr.2).tail)) (acc ++ [vr.1])
         else if (skipWs vr.2).head? = some ']' then
           some (.arr (acc ++ [vr.1]), (skipWs vr.2).tail)
         else none) := rfl

theorem parseObjElems_succ (f : Nat) (s : List Char)
    (acc : List (List Char × JVal)) :
    parseObjElems (f+1) s acc =
      (if s.head? = some '"' then
        match parseStrBody s.tail with
        | none => none
        | some kr =>
          if (skipWs kr.2).head? = some ':' then
            match parseVal f (skipWs ((skipWs kr.2).tail)) with
            | none => none
            | some vr =>
              if (skipWs vr.2).head? = some ',' then
                parseObjElems f (skipWs ((skipWs vr.2).tail))
                  (dInsert acc kr.1 vr.1)
              else if (skipWs vr.2).head? = some '}' then
                some (.obj (dInsert acc kr.1 vr.1), (skipWs vr.2).tail)
              else none
          else none
      else none) := rfl

theorem parseArrElems_succ_some (f : Nat) (s : List Char) (acc : List JVal)
    (v0 : JVal) (r0 : List Char) (h : parseVal f s = some (v0, r0)) :
    parseArrElems (f+1) s acc =
      (if (skipWs r0).head? = some ',' then
        parseArrElems f (skipWs ((skipWs r0).tail)) (acc ++ [v0])
      else if (skipWs r0).head? = some ']' then
        some (.arr (acc ++ [v0]), (skipWs r0).tail)
      else none) := by
  rw [parseArrElems_succ, h]

theorem parseArrElems_succ_none (f : Nat) (s : List Char) (acc : List JVal)
    (h : parseVal f s = none) : parseArrElems (f+1) s acc = none := by
  rw [parseArrElems_succ, h]

theorem parseObjElems_not_quote (f : Nat) (s : List Char)
    (acc : List (List Char × JVal)) (h : ¬s.head? = some '"') :
    parseObjElems (f+1) s acc = none := by
  rw [parseObjElems_succ, if_neg h]

theorem parseObjElems_quote_none (f : Nat) (s2 : List Char)
    (acc : List (List Char × JVal)) (h : parseStrBody s2 = none) :
    parseObjElems (f+1) ('"' :: s2) acc = none := by
  rw [parseObjElems_succ]
  simp only [List.head?_cons, List.tail_cons]
  rw [if_pos trivial, h]

theorem parseObjElems_quote_some (f : Nat) (s2 : List Char)
    (acc : List (List Char × JVal)) (k r1 : List Char)
    (h : parseStrBody s2 = some (k, r1)) :
    parseObjElems (f+1) ('"' :: s2) acc =
      (if (skipWs r1).head? = some ':' then
        match parseVal f (skipWs ((skipWs r1).tail)) with
        | none => none
        | some vr =>
          if (skipWs vr.2).head? = some ',' then
            parseObjElems f (skipWs ((skipWs vr.2).tail)) (dInsert acc k vr.1)
          else if (skipWs vr.2).head? = some '}' then
            some (.obj (dInsert acc k vr.1), (skipWs vr.2).tail)
          else none
      else none) := by
  rw [parseObjElems_succ]
  simp only [List.head?_cons, List.tail_cons]
  rw [if_pos trivial, h]

theorem parseArrElems_zero (s : List Char) (acc : List JVal) :
    parseArrElems 0 s acc = none := rfl

theorem parseObjElems_zero (s : List Char) (acc : List (List Char × JVal)) :
    parseObjElems 0 s acc = none := rfl

theorem parse_grow (t : List Char)
    (htd : ∀ c, t.head? = some c → c.isDigit = false) :
    ∀ f2 : Nat,
      (∀ f1 s v r, f1 ≤ f2 → parseVal f1 s = some (v, r) →
        parseVal f2 (s ++ t) = some (v, r ++ t)) ∧
      (∀ f1 s acc v r, f1 ≤ f2 → parseArrElems f1 s acc = some (v, r) →
        parseArrElems f2 (s ++ t) acc = some (v, r ++ t)) ∧
      (∀ f1 s acc v r, f1 ≤ f2 → parseObjElems f1 s acc = some (v, r) →
        parseObjElems f2 (s ++ t) acc = some (v, r ++ t)) := by
  intro f2
  induction f2 with
  | zero =>
    refine ⟨?_, ?_, ?_⟩
    · intro f1 s v r hf h
      rw [Nat.le_zero.mp hf, parseVal_zero] at h
      exact Option.noConfusion h
    · intro f1 s acc v r hf h
      rw [Nat.le_zero.mp hf, parseArrElems_zero] at h
      exact Option.noConfusion h
    · intro f1 s acc v r hf h
      rw [Nat.le_zero.mp hf, parseObjElems_zero] at h
      exact Option.noConfusion h
  | succ f2 ih =>
    obtain ⟨ihv, iha, iho⟩ := ih
    refine ⟨?_, ?_, ?_⟩
    · intro f1 s v r hf h
      cases f1 with
      | zero =>
        rw [parseVal_zero] at h
        exact Option.noConfusion h
      | succ f1' =>
        have hf' : f1' ≤ f2 := Nat.le_of_succ_le_succ hf
        cases s with
        | nil =>
          rw [parseVal_nil] at h
          exact Option.noConfusion h
        | cons c rest =>
          rw [parseVal_cons_eq] at h
          rw [List.cons_append, parseVal_cons_eq]
          by_cases h1 : c = '"'
          · rw [if_pos h1] at h ⊢
            obtain ⟨⟨p1, p2⟩, hp, hinj⟩ := Option.map_eq_some'.mp h
            simp only [Prod.mk.injEq] at hinj
            obtain ⟨rfl, rfl⟩ := hinj
            rw [parseStrBody_ext t rest.length rest p1 p2 le_rfl hp]
            rfl
          · rw [if_neg h1] at h ⊢
            by_cases h2 : c = '['
            · rw [if_pos h2] at h ⊢
              by_cases hcl : (skipWs rest).head? = some ']'
              · rw [if_pos hcl] at h
                cases hsw : skipWs rest with
                | nil =>
                  rw [hsw] at hcl
                  exact Option.noConfusion hcl
                | cons d r1 =>
                  rw [hsw] at hcl h
                  simp only [List.head?_cons, Option.some.injEq] at hcl
                  subst hcl
                  simp only [List.tail_cons, Option.some.injEq,
                    Prod.mk.injEq] at h
                  obtain ⟨rfl, rfl⟩ := h
                  rw [skipWs_append_cons rest t _ _ hsw]
                  simp
              · rw [if_neg hcl] at h
                cases hsw : skipWs rest with
                | nil =>
                  rw [hsw, parseArrElems_nil] at h
                  exact Option.noConfusion h
                | cons d r1 =>
                  have hd : ¬d = ']' := by
                    rw [hsw] at hcl
                    simpa using hcl
                  rw [skipWs_append_cons rest t _ _ hsw]
                  simp only [List.head?_cons, Option.some.injEq]
                  rw [if_neg hd]
                  rw [hsw] at h
                  exact iha f1' (d :: r1) [] v r hf' h
            · rw [if_neg h2] at h ⊢
              by_cases h3 : c = '{'
              · rw [if_pos h3] at h ⊢
                by_cases hcl : (skipWs rest).head? = some '}'
                · rw [if_pos hcl] at h
                  cases hsw : skipWs rest with
                  | nil =>
                    rw [hsw] at hcl
                    exact Option.noConfusion hcl
                  | cons d r1 =>
                    rw [hsw] at hcl h
                    simp only [List.head?_cons, Option.some.injEq] at hcl
                    subst hcl
                    simp only [List.tail_cons, Option.some.injEq,
                      Prod.mk.injEq] at h
                    obtain ⟨rfl, rfl⟩ := h
                    rw [skipWs_append_cons rest t _ _ hsw]
                    simp
                · rw [if_neg hcl] at h
                  cases hsw : skipWs rest with
                  | nil =>
                    cases f1' with
                    | zero =>
                      rw [hsw, parseObjElems_zero] at h
                      exact Option.noConfusion h
                    | succ f1b =>
                      rw [hsw, parseObjElems_not_quote] at h
                      · exact Option.noConfusion h
                      · simp
                  | cons d r1 =>
                    have hd : ¬d = '}' := by
                      rw [hsw] at hcl
                      simpa using hcl
                    rw [skipWs_append_cons rest t _ _ hsw]
                    simp only [List.head?_cons, Option.some.injEq]
                    rw [if_neg hd]
                    rw [hsw] at h
                    exact iho f1' (d :: r1) [] v r hf' h
              · rw [if_neg h3] at h ⊢
                by_cases h4 : c = 'n'
                · rw [if_pos h4] at h ⊢
                  by_cases hta : rest.take 3 = ['u', 'l', 'l']
                  · rw [if_pos hta] at h
                    simp only [Option.some.injEq, Prod.mk.injEq] at h
                    obtain ⟨rfl, rfl⟩ := h
                    have hre : rest = ['u', 'l', 'l'] ++ rest.drop 3 := by
                      conv_lhs => rw [← List.take_append_drop 3 rest, hta]
                    have ht3 : (rest ++ t).take 3 = ['u', 'l', 'l'] := by
                      conv_lhs => rw [hre, List.append_assoc]
                      rw [List.take_left' (show (['u', 'l', 'l'] :
                        List Char).length = 3 from rfl)]
                    have hd3 : (rest ++ t).drop 3 = rest.drop 3 ++ t := by
                      conv_lhs => rw [hre, List.append_assoc]
                      rw [List.drop_left' (show (['u', 'l', 'l'] :
                        List Char).length = 3 from rfl)]
                    rw [ht3, if_pos rfl, hd3]
                  · rw [if_neg hta] at h
                    exact Option.noConfusion h
                · rw [if_neg h4] at h ⊢
                  by_cases h5 : c = 't'
                  · rw [if_pos h5] at h ⊢
                    by_cases hta : rest.take 3 = ['r', 'u', 'e']
                    · rw [if_pos hta] at h
                      simp only [Option.some.injEq, Prod.mk.injEq] at h
                      obtain ⟨rfl, rfl⟩ := h
                      have hre : rest = ['r', 'u', 'e'] ++ rest.drop 3 := by
                        conv_lhs => rw [← List.take_append_drop 3 rest, hta]
                      have ht3 : (rest ++ t).take 3 = ['r', 'u', 'e'] := by
                        conv_lhs => rw [hre, List.append_assoc]
                        rw [List.take_left' (show (['r', 'u', 'e'] :
                          List Char).length = 3 from rfl)]
                      have hd3 : (rest ++ t).drop 3 = rest.drop 3 ++ t := by
                        conv_lhs => rw [hre, List.append_assoc]
                        rw [List.drop_left' (show (['r', 'u', 'e'] :
                          List Char).length = 3 from rfl)]
                      rw [ht3, if_pos rfl, hd3]
                    · rw [if_neg hta] at h
                      exact Option.noConfusion h
                  · rw [if_neg h5] at h ⊢
                    by_cases h6 : c = 'f'
                    · rw [if_pos h6] at h ⊢
                      by_cases hta : rest.take 4 = ['a', 'l', 's', 'e']
                      · rw [if_pos hta] at h
                        simp only [Option.some.injEq, Prod.mk.injEq] at h
                        obtain ⟨rfl, rfl⟩ := h
                        have hre : rest = ['a', 'l', 's', 'e'] ++
                            rest.drop 4 := by
                          conv_lhs => rw [← List.take_append_drop 4 rest, hta]
                        have ht3 : (rest ++ t).take 4 = ['a', 'l', 's', 'e'] := by
                          conv_lhs => rw [hre, List.append_assoc]
                          rw [List.take_left' (show (['a', 'l', 's', 'e'] :
                            List Char).length = 4 from rfl)]
                        have hd3 : (rest ++ t).drop 4 = rest.drop 4 ++ t := by
                          conv_lhs => rw [hre, List.append_assoc]
                          rw [List.drop_left' (show (['a', 'l', 's', 'e'] :
                            List Char).length = 4 from rfl)]
                        rw [ht3, if_pos rfl, hd3]
                      · rw [if_neg hta] at h
                        exact Option.noConfusion h
                    · rw [if_neg h6] at h ⊢
                      by_cases h7 : (c == '-' || c.isDigit) = true
                      · rw [if_pos h7] at h ⊢
                        obtain ⟨⟨p1, p2⟩, hp, hinj⟩ := Option.map_eq_some'.mp h
                        simp only [Prod.mk.injEq] at hinj
                        obtain ⟨rfl, rfl⟩ := hinj
                        have hpe := parseNum_ext t (c :: rest) p1 p2 htd hp
                        rw [List.cons_append] at hpe
                        rw [hpe]
                        rfl
                      · rw [if_neg h7] at h
                        exact Option.noConfusion h
    · intro f1 s acc v r hf h
      cases f1 with
      | zero =>
        rw [parseArrElems_zero] at h
        exact Option.noConfusion h
      | succ f1' =>
        have hf' : f1' ≤ f2 := Nat.le_of_succ_le_succ hf
        cases hpv : parseVal f1' s with
        | none =>
          rw [parseArrElems_succ_none f1' s acc hpv] at h
          exact Option.noConfusion h
        | some vr =>
          obtain ⟨v0, r0⟩ := vr
          rw [parseArrElems_succ_some f1' s acc v0 r0 hpv] at h
          rw [parseArrElems_succ_some f2 (s ++ t) acc v0 (r0 ++ t)
            (ihv f1' s v0 r0 hf' hpv)]
          by_cases hc1 : (skipWs r0).head? = some ','
          · rw [if_pos hc1] at h
            cases hsw : skipWs r0 with
            | nil =>
              rw [hsw] at hc1
              exact Option.noConfusion hc1
            | cons d r1 =>
              rw [hsw] at hc1 h
              simp only [List.head?_cons, Option.some.injEq] at hc1
              subst hc1
              simp only [List.tail_cons] at h
              rw [skipWs_append_cons r0 t _ _ hsw]
              simp only [List.head?_cons, List.tail_cons]
              rw [if_pos trivial]
              cases hsw2 : skipWs r1 with
              | nil =>
                rw [hsw2, parseArrElems_nil] at h
                exact Option.noConfusion h
              | cons e r2 =>
                rw [skipWs_append_cons r1 t _ _ hsw2]
                rw [hsw2] at h
                exact iha f1' (e :: r2) (acc ++ [v0]) v r hf' h
          · rw [if_neg hc1] at h
            by_cases hc2 : (skipWs r0).head? = some ']'
            · rw [if_pos hc2] at h
              cases hsw : skipWs r0 with
              | nil =>
                rw [hsw] at hc2
                exact Option.noConfusion hc2
              | cons d r1 =>
                rw [hsw] at hc1 hc2 h
                simp only [List.head?_cons, Option.some.injEq] at hc2
                subst hc2
                simp only [List.tail_cons, Option.some.injEq,
                  Prod.mk.injEq] at h
                obtain ⟨rfl, rfl⟩ := h
                rw [skipWs_append_cons r0 t _ _ hsw]
                simp only [List.head?_cons, Option.some.injEq, List.tail_cons]
                rw [if_neg (by decide), if_pos trivial]
            · rw [if_neg hc2] at h
              exact Option.noConfusion h
    · intro f1 s acc v r hf h
      cases f1 with
      | zero =>
        rw [parseObjElems_zero] at h
        exact Option.noConfusion h
      | succ f1' =>
        have hf' : f1' ≤ f2 := Nat.le_of_succ_le_succ hf
        cases s with
        | nil =>
          rw [parseObjElems_not_quote f1' [] acc (by simp)] at h
          exact Option.noConfusion h
        | cons c s2 =>
          by_cases hq : c = '"'
          · subst hq
            cases hsb : parseStrBody s2 with
            | none =>
              rw [parseObjElems_quote_none f1' s2 acc hsb] at h
              exact Option.noConfusion h
            | some kr =>
              obtain ⟨k, r1⟩ := kr
              rw [parseObjElems_quote_some f1' s2 acc k r1 hsb] at h
              rw [List.cons_append,
                parseObjElems_quote_some f2 (s2 ++ t) acc k (r1 ++ t)
                  (parseStrBody_ext t s2.length s2 k r1 le_rfl hsb)]
              by_cases hcol : (skipWs r1).head? = some ':'
              · rw [if_pos hcol] at h
                cases hsw : skipWs r1 with
                | nil =>
                  rw [hsw] at hcol
                  exact Option.noConfusion hcol
                | cons d r2 =>
                  rw [hsw] at hcol h
                  simp only [List.head?_cons, Option.some.injEq] at hcol
                  subst hcol
                  simp only [List.tail_cons] at h
                  rw [skipWs_append_cons r1 t _ _ hsw]
                  simp only [List.head?_cons, List.tail_cons]
                  rw [if_pos trivial]
                  cases hpv : parseVal f1' (skipWs r2) with
                  | none =>
                    rw [hpv] at h
                    exact Option.noConfusion h
                  | some vr3 =>
                    obtain ⟨v0, r3⟩ := vr3
                    rw [hpv] at h
                    have h3 : (if (skipWs r3).head? = some ',' then
                        parseObjElems f1' (skipWs ((skipWs r3).tail))
                          (dInsert acc k v0)
                      else if (skipWs r3).head? = some '}' then
                        some (.obj (dInsert acc k v0), (skipWs r3).tail)
                      else none) = some (v, r) := h
                    cases hsw2 : skipWs r2 with
                    | nil =>
                      rw [hsw2, parseVal_nil] at hpv
                      exact Option.noConfusion hpv
                    | cons e r4 =>
                      rw [skipWs_append_cons r2 t _ _ hsw2]
                      have hiv := ihv f1' (e :: r4) v0 r3 hf'
                        (by rw [← hsw2]; exact hpv)
                      rw [List.cons_append] at hiv
                      rw [hiv]
                      show (if (skipWs (r3 ++ t)).head? = some ',' then
                          parseObjElems f2 (skipWs ((skipWs (r3 ++ t)).tail))
                            (dInsert acc k v0)
                        else if (skipWs (r3 ++ t)).head? = some '}' then
                          some (.obj (dInsert acc k v0), (skipWs (r3 ++ t)).tail)
                        else none) = some (v, r ++ t)
                      by_cases hc1 : (skipWs r3).head? = some ','
                      · rw [if_pos hc1] at h3
                        cases hsw3 : skipWs r3 with
                        | nil =>
                          rw [hsw3] at hc1
                          exact Option.noConfusion hc1
                        | cons d2 r5 =>
                          rw [hsw3] at hc1 h3
                          simp only [List.head?_cons, Option.some.injEq] at hc1
                          subst hc1
                          simp only [List.tail_cons] at h3
                          rw [skipWs_append_cons r3 t _ _ hsw3]
                          simp only [List.head?_cons, List.tail_cons]
                          rw [if_pos trivial]
                          cases hsw4 : skipWs r5 with
                          | nil =>
                            cases f1' with
                            | zero =>
                              rw [parseObjElems_zero] at h3
                              exact Option.noConfusion h3
                            | succ f1b =>
                              rw [hsw4, parseObjElems_not_quote f1b []
                                (dInsert acc k v0) (by simp)] at h3
                              exact Option.noConfusion h3
                          | cons e2 r6 =>
                            rw [skipWs_append_cons r5 t _ _ hsw4]
                            rw [hsw4] at h3
                            exact iho f1' (e2 :: r6) (dInsert acc k v0)
                              v r hf' h3
                      · rw [if_neg hc1] at h3
                        by_cases hc2 : (skipWs r3).head? = some '}'
                        · rw [if_pos hc2] at h3
                          cases hsw3 : skipWs r3 with
                          | nil =>
                            rw [hsw3] at hc2
                            exact Option.noConfusion hc2
                          | cons d2 r5 =>
                            rw [hsw3] at hc1 hc2 h3
                            simp only [List.head?_cons, Option.some.injEq] at hc2
                            subst hc2
                            simp only [List.tail_cons, Option.some.injEq,
                              Prod.mk.injEq] at h3
                            obtain ⟨rfl, rfl⟩ := h3
                            rw [skipWs_append_cons r3 t _ _ hsw3]
                            simp only [List.head?_cons, Option.some.injEq,
                              List.tail_cons]
                            rw [if_neg (by decide), if_pos trivial]
                        · rw [if_neg hc2] at h3
                          exact Option.noConfusion h3
              · rw [if_neg hcol] at h
                exact Option.noConfusion h
          · rw [parseObjElems_not_quote f1' (c :: s2) acc
              (by simpa using hq)] at h
            exact Option.noConfusion h
/-! ## Composing the array parse from independent line parses -/

theorem parseVal_mono (f1 f2 : Nat) (s : List Char) (v : JVal) (r : List Char)
    (hf : f1 ≤ f2) (h : parseVal f1 s = some (v, r)) :
    parseVal f2 s = some (v, r) := by
  have h2 := (parse_grow [] (by intro c hc; cases hc) f2).1 f1 s v r hf h
  simpa using h2

theorem skipWs_cons_nws (c : Char) (x : List Char) (h : isJsonWs c = false) :
    skipWs (c :: x) = c :: x := by
  rw [skipWs, List.dropWhile_cons_of_neg]
  simp [h]

theorem loads_inv (l : List Char) (v : JVal) (hhd : l.head? = some '{')
    (h : loads l = some v) :
    ∃ rl, parseVal (2 * l.length + 2) l = some (v, rl) ∧ skipWs rl = [] := by
  have hsk : skipWs l = l := by
    cases l with
    | nil => cases hhd
    | cons c x =>
      have hc : c = '{' := by simpa using hhd
      subst hc
      exact skipWs_cons_nws '{' x (by decide)
  rw [loads, hsk] at h
  cases hq : parseVal (2 * l.length + 2) l with
  | none =>
    rw [hq] at h
    exact Option.noConfusion h
  | some vr =>
    obtain ⟨v0, r0⟩ := vr
    rw [hq] at h
    have h2 : (if (skipWs r0).isEmpty then some v0 else none) = some v := h
    by_cases he : (skipWs r0).isEmpty = true
    · rw [if_pos he] at h2
      simp only [Option.some.injEq] at h2
      subst h2
      exact ⟨r0, rfl, by simpa [List.isEmpty_iff] using he⟩
    · rw [if_neg he] at h2
      exact Option.noConfusion h2

theorem joinComma_head (l2 : List Char) (ls3 : List (List Char)) (c : Char)
    (h : l2.head? = some c) : (joinComma (l2 :: ls3)).head? = some c := by
  cases ls3 with
  | nil => rw [joinComma_single]; exact h
  | cons l3 ls4 =>
    rw [joinComma_cons_cons]
    cases l2 with
    | nil => cases h
    | cons a x => simpa using h

theorem mem_dataLines (ts : List PifTok) (l : List Char)
    (h : l ∈ dataLines ts) : PifTok.data l ∈ ts := by
  rw [dataLines] at h
  obtain ⟨t, ht, heq⟩ := List.mem_filterMap.mp h
  cases t with
  | marker mid ws => cases heq
  | data l2 =>
    have : l2 = l := by simpa using heq
    subst this
    exact ht

theorem forall2_and_left {α β : Type} (P : α → β → Prop) (Q : α → Prop) :
    ∀ (ls : List α) (vs : List β), List.Forall₂ P ls vs →
      (∀ l ∈ ls, Q l) → List.Forall₂ (fun l v => P l v ∧ Q l) ls vs := by
  intro ls vs h
  induction h with
  | nil => intro _; exact List.Forall₂.nil
  | cons hp _ ih =>
    intro hq
    exact List.Forall₂.cons ⟨hp, hq _ (by simp)⟩
      (ih (fun l hl => hq l (by simp [hl])))

theorem parseArrElems_compose :
    ∀ (ls : List (List Char)) (vs : List JVal) (acc : List JVal) (f : Nat),
      List.Forall₂ (fun l v => loads l = some v ∧ l.head? = some '{') ls vs →
      ls ≠ [] →
      2 * (joinComma ls).length + 4 ≤ f →
      parseArrElems f (joinComma ls ++ [']']) acc =
        some (.arr (acc ++ vs), []) := by
  intro ls
  induction ls with
  | nil => intro vs acc f _ hne _; exact absurd rfl hne
  | cons l ls2 ih =>
    intro vs acc f hfa hne hfuel
    cases hfa with
    | cons hlv htail =>
      rename_i v vs2
      obtain ⟨hld, hhd⟩ := hlv
      obtain ⟨rl, hpv, hre⟩ := loads_inv l v hhd hld
      cases f with
      | zero => omega
      | succ fp =>
        cases ls2 with
        | nil =>
          cases htail
          rw [joinComma_single] at hfuel ⊢
          have hfp : 2 * l.length + 2 ≤ fp := by omega
          have htd1 : ∀ c : Char, ([']'] : List Char).head? = some c →
              c.isDigit = false := by
            intro c hc
            simp only [List.head?_cons, Option.some.injEq] at hc
            subst hc
            decide
          have hpv2 := (parse_grow [']'] htd1 fp).1
            (2 * l.length + 2) l v rl hfp hpv
          rw [parseArrElems_succ_some fp (l ++ [']']) acc v (rl ++ [']']) hpv2]
          have hs2 : skipWs (rl ++ [']']) = [']'] := by
            rw [skipWs_all_append _ _ hre]
            rfl
          rw [hs2]
          simp
        | cons l2 ls3 =>
          have hjoin : joinComma (l :: l2 :: ls3) ++ [']'] =
              l ++ (',' :: (joinComma (l2 :: ls3) ++ [']'])) := by
            rw [joinComma_cons_cons, List.append_assoc]
            rfl
          rw [hjoin]
          have hlen : (joinComma (l :: l2 :: ls3)).length =
              l.length + 1 + (joinComma (l2 :: ls3)).length := by
            rw [joinComma_cons_cons]
            simp only [List.length_append, List.length_cons]
            omega
          have hfp : 2 * l.length + 2 ≤ fp := by
            rw [hlen] at hfuel
            omega
          have htd1 : ∀ c : Char,
              (',' :: (joinComma (l2 :: ls3) ++ [']'])).head? = some c →
              c.isDigit = false := by
            intro c hc
            simp only [List.head?_cons, Option.some.injEq] at hc
            subst hc
            decide
          have hpv2 := (parse_grow (',' :: (joinComma (l2 :: ls3) ++ [']']))
            htd1 fp).1 (2 * l.length + 2) l v rl hfp hpv
          rw [parseArrElems_succ_some fp _ acc v _ hpv2]
          have hs2 : skipWs (rl ++ (',' :: (joinComma (l2 :: ls3) ++ [']']))) =
              ',' :: (joinComma (l2 :: ls3) ++ [']']) := by
            rw [skipWs_all_append _ _ hre]
            exact skipWs_cons_nws ',' _ (by decide)
          rw [hs2]
          simp only [List.head?_cons, List.tail_cons]
          rw [if_pos trivial]
          have hh2 : l2.head? = some '{' := by
            cases htail with
            | cons hp _ => exact hp.2
          have hsk3 : skipWs (joinComma (l2 :: ls3) ++ [']']) =
              joinComma (l2 :: ls3) ++ [']'] := by
            have := joinComma_head l2 ls3 '{' hh2
            cases hj : joinComma (l2 :: ls3) with
            | nil => rw [hj] at this; cases this
            | cons a x =>
              rw [hj] at this
              have ha : a = '{' := by simpa using this
              subst ha
              rw [List.cons_append]
              exact skipWs_cons_nws '{' _ (by decide)
          rw [hsk3]
          have hrec := ih vs2 (acc ++ [v]) fp htail (by simp)
            (by rw [hlen] at hfuel; omega)
          rw [hrec]
          simp

theorem loads_bracket (ls : List (List Char)) (vs : List JVal)
    (hne : ls ≠ [])
    (hfa : List.Forall₂ (fun l v => loads l = some v ∧ l.head? = some '{')
      ls vs) :
    loads ('[' :: (joinComma ls ++ [']'])) = some (.arr vs) := by
  obtain ⟨l, ls2, rfl⟩ : ∃ l ls2, ls = l :: ls2 := by
    cases ls with
    | nil => exact absurd rfl hne
    | cons l ls2 => exact ⟨l, ls2, rfl⟩
  have hh : l.head? = some '{' := by
    cases hfa with
    | cons hp _ => exact hp.2
  have hjh := joinComma_head l ls2 '{' hh
  have hsk : skipWs (joinComma (l :: ls2) ++ [']']) =
      joinComma (l :: ls2) ++ [']'] := by
    cases hj : joinComma (l :: ls2) with
    | nil => rw [hj] at hjh; cases hjh
    | cons a x =>
      rw [hj] at hjh
      have ha : a = '{' := by simpa using hjh
      subst ha
      rw [List.cons_append]
      exact skipWs_cons_nws '{' _ (by decide)
  rw [loads]
  rw [skipWs_cons_nws '[' _ (by decide)]
  have hlen : ('[' :: (joinComma (l :: ls2) ++ [']'])).length =
      (joinComma (l :: ls2)).length + 2 := by
    simp
  rw [hlen]
  have hfuel : 2 * ((joinComma (l :: ls2)).length + 2) + 2 =
      (2 * (joinComma (l :: ls2)).length + 5) + 1 := by omega
  rw [hfuel, parseVal_cons_eq]
  rw [if_neg (by decide), if_pos rfl, hsk]
  have hhdj : (joinComma (l :: ls2) ++ [']']).head? = some '{' := by
    cases hj : joinComma (l :: ls2) with
    | nil => rw [hj] at hjh; cases hjh
    | cons a x =>
      rw [hj] at hjh
      simpa using hjh
  rw [hhdj]
  rw [if_neg (by decide)]
  rw [parseArrElems_compose (l :: ls2) vs [] _ hfa (by simp) (by omega)]
  simp [skipWs]
/-! ## `pif2json` on well-formed legacy token streams -/

theorem pif2json_renderToks (ts : List PifTok) (vs : List JVal)
    (hwf : ∀ t ∈ ts, tokWF t = true)
    (hfa : List.Forall₂ (fun l v => loads l = some v) (dataLines ts) vs) :
    pif2json (renderToks ts) = some vs := by
  have hdl : ∀ l ∈ dataLines ts, l.head? = some '{' ∧ (∃ z, l = z ++ ['}']) ∧
      ∀ c ∈ l, c ≠ '\n' := by
    intro l hl
    have hw := hwf _ (mem_dataLines ts l hl)
    rw [tokWF] at hw
    simp only [Bool.and_eq_true] at hw
    obtain ⟨⟨⟨hne, hhd⟩, hlast⟩, hnl⟩ := hw
    refine ⟨eq_of_beq hhd, ?_, ?_⟩
    · rw [← List.getLast?_eq_some_iff]
      exact eq_of_beq hlast
    · intro c hc
      have := (List.all_eq_true.mp hnl) c hc
      simpa using this
  rw [pif2json, pifClean, pifClean_renderToks ts hwf]
  have heq : ∀ X : List Char, pifAfterClean X =
      (match loads ('[' :: (rstripComma (joinComma (splitNl X)) ++ [']'])) with
       | some (.arr xs) => some xs
       | some _ => none
       | none => none) := fun X => rfl
  rw [heq]
  rw [splitNl_flatten (dataLines ts) (fun l hl => (hdl l hl).2.2)]
  cases hls : dataLines ts with
  | nil =>
    rw [hls] at hfa
    cases hfa
    rfl
  | cons l ls2 =>
    rw [hls] at hfa hdl
    have hfa2 := forall2_and_left _ (fun u => u.head? = some '{') _ _ hfa
      (fun u hu => (hdl u hu).1)
    have hjc : joinComma ((l :: ls2) ++ [[]]) = joinComma (l :: ls2) ++ [','] :=
      joinComma_append_empty _ (by simp)
    obtain ⟨z, hz⟩ := joinComma_last (l :: ls2) (by simp)
      (fun u hu => (hdl u hu).2.1)
    rw [hjc, hz, rstripComma_closed, ← hz]
    rw [loads_bracket (l :: ls2) vs (by simp) hfa2]

theorem dataLines_of_markers (ts : List PifTok)
    (hmk : ∀ t ∈ ts, isMarkerTok t = true) : dataLines ts = [] := by
  induction ts with
  | nil => rfl
  | cons t ts2 ih =>
    cases t with
    | marker mid ws =>
      rw [dataLines]
      simp only [List.filterMap_cons]
      exact ih (fun u hu => hmk u (by simp [hu]))
    | data l =>
      have := hmk (.data l) (by simp)
      rw [isMarkerTok] at this
      cases this

/-- C2 (amended): for every well-formed legacy token stream whose data
lines each parse alone as a JSON value, `pif2json` of the rendered bytes
returns exactly the list of those values, one per data line, in order;
the spec's concrete example instead raises, because its final marker
line is not followed by whitespace and its second line is not an object
literal. -/
theorem c2_legacy_round_trip (ts : List PifTok) (vs : List JVal)
    (hwf : ∀ t ∈ ts, tokWF t = true)
    (hfa : List.Forall₂ (fun l v => loads l = some v) (dataLines ts) vs) :
    pif2json (renderToks ts) = some vs ∧
      vs.length = (dataLines ts).length :=
  ⟨pif2json_renderToks ts vs hwf hfa, (List.Forall₂.length_eq hfa).symm⟩

/-- C2 witness: the repaired example
`"***X***\n{"a":1}\n{"b":2}\n***Y***\n"` normalizes to exactly the two
objects parsed from its two data lines. -/
theorem c2_legacy_round_trip_witness :
    pif2json (renderToks [PifTok.marker ['X'] ['\n'],
      PifTok.data ("\x7b\"a\":1\x7d".toList),
      PifTok.data ("\x7b\"b\":2\x7d".toList),
      PifTok.marker ['Y'] ['\n']]) =
      some [JVal.obj [(['a'], JVal.num 1)], JVal.obj [(['b'], JVal.num 2)]] ∧
    ([JVal.obj [(['a'], JVal.num 1)],
      JVal.obj [(['b'], JVal.num 2)]].length : Nat) =
      (dataLines [PifTok.marker ['X'] ['\n'],
        PifTok.data ("\x7b\"a\":1\x7d".toList),
        PifTok.data ("\x7b\"b\":2\x7d".toList),
        PifTok.marker ['Y'] ['\n']]).length :=
  c2_legacy_round_trip _ _ (by decide)
    (by refine List.Forall₂.cons ?_ (List.Forall₂.cons ?_ List.Forall₂.nil) <;>
      rfl)

/-- C2 counterexample: on the spec's example bytes
`"***X***\nA\n{"a":1}\n{"b":2}\n***Y***"`, `pif2json` raises a
`JSONDecodeError` (`none`) instead of returning the two objects: the
trailing `***Y***` has no following whitespace, so the marker regex
leaves it in place, and the stray `A` line is not an object literal
either. -/
theorem c2_spec_example_rejected :
    pif2json
      ("***X***\nA\n\x7b\"a\":1\x7d\n\x7b\"b\":2\x7d\n***Y***".toList) =
      none := by
  have h1 : ("***X***\nA\n\x7b\"a\":1\x7d\n\x7b\"b\":2\x7d\n***Y***".toList)
      = renderTok (.marker ['X'] ['\n']) ++
        ("A\n\x7b\"a\":1\x7d\n\x7b\"b\":2\x7d\n***Y***".toList) := by decide
  rw [pif2json, pifClean, h1,
    pifSubAux_marker ['X'] ['\n'] _ (by decide) (by decide) (by decide)
      (Or.inr ⟨'A', "\n\x7b\"a\":1\x7d\n\x7b\"b\":2\x7d\n***Y***".toList,
        by decide, by decide⟩)]
  have h2 : ("A\n\x7b\"a\":1\x7d\n\x7b\"b\":2\x7d\n***Y***".toList) =
      ['A'] ++ '\n' :: ("\x7b\"a\":1\x7d\n\x7b\"b\":2\x7d\n***Y***".toList) :=
    by decide
  rw [h2, pifSubAux_line ['A'] _ (by decide) (by decide)]
  have h3 : ("\x7b\"a\":1\x7d\n\x7b\"b\":2\x7d\n***Y***".toList) =
      ("\x7b\"a\":1\x7d".toList) ++ '\n' ::
        ("\x7b\"b\":2\x7d\n***Y***".toList) := by decide
  rw [h3, pifSubAux_line ("\x7b\"a\":1\x7d".toList) _ (by decide) (by decide)]
  have h4 : ("\x7b\"b\":2\x7d\n***Y***".toList) =
      ("\x7b\"b\":2\x7d".toList) ++ '\n' :: ("***Y***".toList) := by decide
  rw [h4, pifSubAux_line ("\x7b\"b\":2\x7d".toList) _ (by decide) (by decide)]
  have h5 : markerMatchLen ("***Y***".toList) = none := by
    simp +decide [markerMatchLen, findClose]
  have h6 : ("***Y***".toList) = '*' :: ("**Y***".toList) := by decide
  rw [h6] at h5
  rw [h6, pifSubAux_true_none _ _ h5]
  simp only [show (('*' : Char) == '\n') = false from rfl]
  have h7 : ("**Y***".toList) = ("**Y***".toList) ++ [] :=
    (List.append_nil _).symm
  rw [h7, pifSubAux_false_append _ [] (by decide), pifSubAux_nil]
  rfl

/-! ## Detection consumes the handle (C3) -/

/-- C3 (amended): `is_format` reads the handle to its end and leaves it
there, so a subsequent `parse` on the same component reads the empty
string and — whatever the file held and whatever the settings — returns
no folders and no entries, not the entries of the detected content. -/
theorem c3_detection_consumes_input (cfg : PifCfg) (f : FileH) :
    (pifIsFormat f).2.content = f.content ∧
    (pifIsFormat f).2.pos = f.content.length ∧
    (pifParseF cfg (pifIsFormat f).2).1 = some ([], []) := by
  refine ⟨rfl, rfl, ?_⟩
  have hr : fread { content := f.content, pos := f.content.length } =
      ([], { content := f.content, pos := f.content.length }) := by
    rw [fread]
    simp [List.drop_length]
  have hpe : ∀ (g : FileH), pifParseF cfg g =
      (match pif2json (fread g).1 with
       | none => (none, (fread g).2)
       | some js => (pifProcess cfg js, (fread g).2)) := fun g => rfl
  show (pifParseF cfg { content := f.content, pos := f.content.length }).1 =
    some ([], [])
  rw [hpe, hr]
  have hpc : pif2json [] = some [] := by
    rw [pif2json, pifClean, pifSubAux_nil]
    rfl
  simp only [hpc]
  rfl

/-- C3 counterexample: a handle holding one WebForm record is detected
as 1PIF (its content parses to one entry when `parse` reads it
directly), but running `parse` after `is_format` on the same handle
yields no entries at all. -/
theorem c3_after_detection_differs :
    (pifIsFormat
      { content := "\x7b\"typeName\": \"webforms.WebForm\", \"title\": \"t\"\x7d\n".toList, pos := 0 }).1 = true ∧
    (pifParseF
      { browserpass := false, strip := true, prefixes := defaultPrefixes,
        keys := [], cleanDom := id }
      { content := "\x7b\"typeName\": \"webforms.WebForm\", \"title\": \"t\"\x7d\n".toList, pos := 0 }).1 =
      some ([], [[(JVal.str ("title".toList), JVal.str ['t'])]]) ∧
    (pifParseF
      { browserpass := false, strip := true, prefixes := defaultPrefixes,
        keys := [], cleanDom := id }
      (pifIsFormat
        { content := "\x7b\"typeName\": \"webforms.WebForm\", \"title\": \"t\"\x7d\n".toList, pos := 0 }).2).1 =
      some ([], []) := by
  have hclean : pifClean
      ("\x7b\"typeName\": \"webforms.WebForm\", \"title\": \"t\"\x7d\n".toList)
      = "\x7b\"typeName\": \"webforms.WebForm\", \"title\": \"t\"\x7d".toList
        ++ ['\n'] := by
    rw [pifClean]
    have hs : ("\x7b\"typeName\": \"webforms.WebForm\", \"title\": \"t\"\x7d\n".toList)
        = ("\x7b\"typeName\": \"webforms.WebForm\", \"title\": \"t\"\x7d".toList)
          ++ '\n' :: [] := by decide
    rw [hs, pifSubAux_line _ _ (by decide) (by decide), pifSubAux_nil]
  have hpj : pif2json
      ("\x7b\"typeName\": \"webforms.WebForm\", \"title\": \"t\"\x7d\n".toList)
      = some [JVal.obj [("typeName".toList, .str ("webforms.WebForm".toList)),
          ("title".toList, .str ['t'])]] := by
    rw [pif2json, hclean]
    rfl
  refine ⟨?_, ?_, ?_⟩
  · show (pif2json (List.drop 0
      ("\x7b\"typeName\": \"webforms.WebForm\", \"title\": \"t\"\x7d\n".toList))).isSome
      = true
    rw [List.drop_zero, hpj]
    rfl
  · have hpe : ∀ (cfg : PifCfg) (g : FileH), pifParseF cfg g =
        (match pif2json (fread g).1 with
         | none => (none, (fread g).2)
         | some js => (pifProcess cfg js, (fread g).2)) := fun _ _ => rfl
    rw [hpe]
    have hfr : fread
        { content := "\x7b\"typeName\": \"webforms.WebForm\", \"title\": \"t\"\x7d\n".toList, pos := 0 } =
        ("\x7b\"typeName\": \"webforms.WebForm\", \"title\": \"t\"\x7d\n".toList,
         { content := "\x7b\"typeName\": \"webforms.WebForm\", \"title\": \"t\"\x7d\n".toList,
           pos := ("\x7b\"typeName\": \"webforms.WebForm\", \"title\": \"t\"\x7d\n".toList).length }) := by
      rw [fread]
      simp
    rw [hfr]
    simp only [hpj]
    rfl
  · exact (c3_detection_consumes_input _ _).2.2

/-! ## Empty and marker-only inputs (C10) -/

/-- C10: the empty input, and any well-formed input consisting solely of
marker lines, normalize to the empty list rather than failing, and the
1PIF detector accepts them. -/
theorem c10_empty_and_markers_accepted :
    (pif2json [] = some [] ∧
      (pifIsFormat { content := [], pos := 0 }).1 = true) ∧
    (∀ ts : List PifTok, (∀ t ∈ ts, tokWF t = true) →
      (∀ t ∈ ts, isMarkerTok t = true) →
      pif2json (renderToks ts) = some [] ∧
      (pifIsFormat { content := renderToks ts, pos := 0 }).1 = true) := by
  have hempty : pif2json [] = some [] := by
    rw [pif2json, pifClean, pifSubAux_nil]
    rfl
  refine ⟨⟨hempty, ?_⟩, ?_⟩
  · show (pif2json (List.drop 0 ([] : List Char))).isSome = true
    rw [List.drop_zero, hempty]
    rfl
  · intro ts hwf hmk
    have h1 := pif2json_renderToks ts [] hwf
      (by rw [dataLines_of_markers ts hmk]; exact List.Forall₂.nil)
    refine ⟨h1, ?_⟩
    show (pif2json (List.drop 0 (renderToks ts))).isSome = true
    rw [List.drop_zero, h1]
    rfl

/-- C10 witness: a file holding the single marker line `***X***` (with
its newline) is normalized to the empty list and accepted. -/
theorem c10_empty_and_markers_accepted_witness :
    pif2json (renderToks [PifTok.marker ['X'] ['\n']]) = some [] ∧
    (pifIsFormat
      { content := renderToks [PifTok.marker ['X'] ['\n']], pos := 0 }).1 =
      true :=
  c10_empty_and_markers_accepted.2 [PifTok.marker ['X'] ['\n']]
    (by decide) (by decide)
